import Mathlib

set_option maxRecDepth 8000

/-!
Verification of the activity-segment reconciliation engine, the
window-grouping engine and the report generator of aw-webui-sg.

Shallow embedding conventions:
* JS numbers are modelled as rationals.  Timestamps are in milliseconds
  (the value of Date.getTime), durations are in seconds, exactly as in
  the source.
* The evaluation-time clock (new Date().getTime()) is threaded as an
  explicit parameter named now.
* JS Map objects are modelled as association lists with the JS Map
  insertion-order semantics: set on a present key updates in place,
  set on an absent key appends.
* console.warn diagnostics are modelled as a natural-number counter
  threaded through the computation.
-/

/-- Presence (AFK watcher) event: timestamp in ms, duration in seconds,
and the data.status string (afk or not-afk). -/
structure AfkEvent where
  timestamp : ℚ
  duration : ℚ
  status : String
deriving DecidableEq, Repr

/-- Stopwatch (task) event: timestamp in ms, duration in seconds, and the
data.running flag. -/
structure SWEvent where
  timestamp : ℚ
  duration : ℚ
  running : Bool
deriving DecidableEq, Repr

/-- Activity segment produced by the segment engine: start in ms,
duration in seconds, and a status string. -/
structure Segment where
  startTimestamp : ℚ
  duration : ℚ
  status : String
deriving DecidableEq, Repr

/-- Effective end of a stopwatch event in ms.  From events.js line 14 and
line 18: swEnd is swStart plus duration times 1000, overridden by now for
running events. -/
def effectiveEnd (sw : SWEvent) (now : ℚ) : ℚ :=
  if sw.running then now else sw.timestamp + sw.duration * 1000

/-- AFK events that overlap the stopwatch window, events.js lines 22 to 26:
afkStart less than swEnd and afkEnd greater than swStart. -/
def overlappingAfk (sw : SWEvent) (afks : List AfkEvent) (now : ℚ) : List AfkEvent :=
  afks.filter fun afk =>
    afk.timestamp < effectiveEnd sw now ∧
      sw.timestamp < afk.timestamp + afk.duration * 1000

/-- Split points as inserted into the JS Set, events.js lines 29 to 39:
the stopwatch start and end, plus every overlapping AFK start or end that
falls strictly inside the window. -/
def splitPointsList (sw : SWEvent) (afks : List AfkEvent) (now : ℚ) : List ℚ :=
  [sw.timestamp, effectiveEnd sw now] ++
    (overlappingAfk sw afks now).flatMap fun afk =>
      (if sw.timestamp < afk.timestamp ∧ afk.timestamp < effectiveEnd sw now
        then [afk.timestamp] else []) ++
      (if sw.timestamp < afk.timestamp + afk.duration * 1000 ∧
          afk.timestamp + afk.duration * 1000 < effectiveEnd sw now
        then [afk.timestamp + afk.duration * 1000] else [])

/-- Sorted deduplicated split points, events.js line 41: the JS Set
removes duplicates, Array.sort orders ascending. -/
def sortedSplitPoints (sw : SWEvent) (afks : List AfkEvent) (now : ℚ) : List ℚ :=
  List.insertionSort (· ≤ ·) (splitPointsList sw afks now).dedup

/-- Fold computing the element with the latest start among a list of AFK
events; ties keep the earliest listed element, matching the head of a
stable descending sort by timestamp, events.js line 59. -/
def latestStart (l : List AfkEvent) : Option AfkEvent :=
  l.foldl
    (fun acc afk =>
      match acc with
      | none => some afk
      | some best => if best.timestamp < afk.timestamp then some afk else some best)
    none

/-- AFK events covering a midpoint, events.js lines 53 to 58:
midpoint at least afkStart and strictly before afkEnd. -/
def coveringAfk (ov : List AfkEvent) (mid : ℚ) : List AfkEvent :=
  ov.filter fun afk =>
    afk.timestamp ≤ mid ∧ mid < afk.timestamp + afk.duration * 1000

/-- Status of a raw segment from its midpoint, events.js lines 61 to 64:
the status of the covering AFK event with the latest start, defaulting to
not-afk when none covers. -/
def segmentStatus (ov : List AfkEvent) (mid : ℚ) : String :=
  match latestStart (coveringAfk ov mid) with
  | some afk => afk.status
  | none => "not-afk"

/-- Raw segment between two consecutive split points, events.js
lines 66 to 70. -/
def mkSegment (ov : List AfkEvent) (a b : ℚ) : Segment :=
  { startTimestamp := a
    duration := (b - a) / 1000
    status := segmentStatus ov (a + (b - a) / 2) }

/-- Raw segments over consecutive split-point pairs, events.js
lines 44 to 71; degenerate pairs are skipped. -/
def rawSegments (ov : List AfkEvent) : List ℚ → List Segment
  | a :: b :: rest =>
      if b ≤ a then rawSegments ov (b :: rest)
      else mkSegment ov a b :: rawSegments ov (b :: rest)
  | _ => []

/-- Merge loop body, events.js lines 78 to 88: a same-status neighbour
extends the current segment, otherwise the current segment is emitted. -/
def mergeSegs (cur : Segment) : List Segment → List Segment
  | [] => [cur]
  | s :: rest =>
      if s.status = cur.status then
        mergeSegs { cur with duration := cur.duration + s.duration } rest
      else cur :: mergeSegs s rest

/-- Merge of consecutive same-status segments, events.js lines 74 to 90. -/
def mergeSegments : List Segment → List Segment
  | [] => []
  | s :: rest => mergeSegs s rest

/-- Activity segments for one stopwatch event, the body of the map in
calculateActivitySegments, events.js lines 12 to 93. -/
def segmentsForEvent (sw : SWEvent) (afks : List AfkEvent) (now : ℚ) : List Segment :=
  mergeSegments
    (rawSegments (overlappingAfk sw afks now) (sortedSplitPoints sw afks now))

/-- The segment engine, events.js lines 10 to 95: maps every stopwatch
event to itself paired with its activity segments. -/
def calculateActivitySegments (sws : List SWEvent) (afks : List AfkEvent) (now : ℚ) :
    List (SWEvent × List Segment) :=
  sws.map fun sw => (sw, segmentsForEvent sw afks now)

/-- Sum of the durations of a list of segments. -/
def segSum (l : List Segment) : ℚ :=
  (l.map Segment.duration).sum

/-- Adjacency relation of gapless segment lists: one segment ends exactly
where the next starts (start in ms, duration in seconds). -/
def gapRel (a b : Segment) : Prop :=
  a.startTimestamp + a.duration * 1000 = b.startTimestamp

instance : DecidablePred (fun p : Segment × Segment => gapRel p.1 p.2) := by
  intro p
  unfold gapRel
  infer_instance

instance : IsTrans Segment fun a b => a.startTimestamp < b.startTimestamp :=
  ⟨fun _ _ _ h1 h2 => lt_trans h1 h2⟩

/-- Step of the latest-start fold. -/
def latestStep (acc : Option AfkEvent) (afk : AfkEvent) : Option AfkEvent :=
  match acc with
  | none => some afk
  | some best => if best.timestamp < afk.timestamp then some afk else some best

/-- Window-focus sample, panelManager.js: an event with a bucket id, a
timestamp in ms, a duration in seconds, and data.app and data.title. -/
structure WEvent where
  bucket : String
  timestamp : ℚ
  duration : ℚ
  app : String
  title : String
deriving DecidableEq, Repr

/-- Modelled from the spec: normalizeTitle is imported by panelManager.js
from utils.js but its definition is not among the sources; the spec
describes titleDurations simply as a mapping from title to accumulated
seconds, so the normalization is modelled as the identity.  No claim
depends on its behaviour. -/
def normalizeTitle (t : String) : String := t

/-- Truncation toward zero, the behaviour of JS division remainder. -/
def jsTrunc (q : ℚ) : ℤ :=
  if q < 0 then ⌈q⌉ else ⌊q⌋

/-- JS remainder operator: x % y keeps the sign of x. -/
def jsMod (x y : ℚ) : ℚ :=
  x - y * (jsTrunc (x / y) : ℚ)

/-- Pad of a numeral string to two characters, String(n).padStart(2, 0). -/
def pad2 (n : ℤ) : String :=
  let str := toString n
  if str.length < 2 then "0" ++ str else str

/-- The formatDuration helper of utils.js. -/
def formatDuration (seconds : ℚ) (includeSeconds : Bool) : String :=
  let h : ℤ := ⌊seconds / 3600⌋
  let m : ℤ := ⌊jsMod seconds 3600 / 60⌋
  let s : ℤ := ⌊jsMod seconds 60⌋
  if 0 < h then
    if includeSeconds then
      toString h ++ "h " ++ pad2 m ++ "m " ++ pad2 s ++ "s"
    else
      toString h ++ "h " ++ pad2 m ++ "m"
  else if 0 < m then
    if includeSeconds then
      toString m ++ "m " ++ pad2 s ++ "s"
    else
      toString m ++ "m"
  else if includeSeconds then
    pad2 s ++ "s"
  else
    ""

/-- Window-activity group, panelManager.js lines 391 to 397. -/
structure WGroup where
  app : String
  startTime : ℚ
  totalDuration : ℚ
  titleDurations : List (String × ℚ)
  events : List WEvent
  endTime : ℚ
  uniqueApps : Option Nat
  id : String
deriving DecidableEq, Repr

/-- JS Map set: update in place on a present key, append otherwise. -/
def mapSet : List (String × ℚ) → String → ℚ → List (String × ℚ)
  | [], k, v => [(k, v)]
  | (k2, v2) :: rest, k, v =>
      if k2 = k then (k2, v) :: rest else (k2, v2) :: mapSet rest k v

/-- JS Map get with a default. -/
def mapGetD (m : List (String × ℚ)) (k : String) (d : ℚ) : ℚ :=
  match m.find? fun p => p.1 = k with
  | some p => p.2
  | none => d

/-- Fresh group seeded with one event, panelManager.js lines 391 to 397
and 434 to 441. -/
def initGroup (e : WEvent) : WGroup :=
  { app := e.app
    startTime := e.timestamp
    totalDuration := e.duration
    titleDurations := [(normalizeTitle e.title, e.duration)]
    events := [e]
    endTime := e.timestamp + e.duration * 1000
    uniqueApps := none
    id := "" }

/-- Appending an event to the current group, panelManager.js
lines 424 to 430. -/
def pushEventIntoGroup (g : WGroup) (e : WEvent) : WGroup :=
  { g with
    events := g.events ++ [e]
    totalDuration := g.totalDuration + e.duration
    endTime := e.timestamp + e.duration * 1000
    titleDurations := mapSet g.titleDurations (normalizeTitle e.title)
      (mapGetD g.titleDurations (normalizeTitle e.title) 0 + e.duration) }

/-- State of the clean grouping walk: emitted groups, current group, and
the number of console.warn diagnostics. -/
structure CleanState where
  groups : List WGroup
  cur : WGroup
  warns : Nat
deriving Repr

/-- One iteration of the clean grouping loop, panelManager.js
lines 399 to 443.  A same-app event whose start precedes the end of the
last accepted event is an overlap anomaly: a diagnostic is counted and
the longer of the two events is kept (the stored one on ties). -/
def cleanStep (st : CleanState) (e : WEvent) : CleanState :=
  if e.app = st.cur.app then
    match st.cur.events.getLast? with
    | some lastEv =>
        if e.timestamp < lastEv.timestamp + lastEv.duration * 1000 then
          if lastEv.duration < e.duration then
            { st with
              warns := st.warns + 1
              cur := { st.cur with
                totalDuration := st.cur.totalDuration - lastEv.duration + e.duration
                events := st.cur.events.dropLast ++ [e]
                endTime := e.timestamp + e.duration * 1000 } }
          else { st with warns := st.warns + 1 }
        else { st with cur := pushEventIntoGroup st.cur e }
    | none => { st with cur := pushEventIntoGroup st.cur e }
  else
    { groups := st.groups ++ [st.cur], cur := initGroup e, warns := st.warns }

instance : DecidableRel fun a b : WEvent => a.timestamp ≤ b.timestamp :=
  fun a b => inferInstanceAs (Decidable (a.timestamp ≤ b.timestamp))

instance : IsTotal WEvent fun a b => a.timestamp ≤ b.timestamp :=
  ⟨fun a b => le_total a.timestamp b.timestamp⟩

instance : IsTrans WEvent fun a b => a.timestamp ≤ b.timestamp :=
  ⟨fun _ _ _ h1 h2 => le_trans h1 h2⟩

/-- The window events: filtered to the window-watcher bucket and sorted
by timestamp (stable), panelManager.js line 380. -/
def windowEventsOf (events : List WEvent) : List WEvent :=
  List.insertionSort (fun a b => a.timestamp ≤ b.timestamp)
    (events.filter fun e => e.bucket.startsWith "aw-watcher-window")

/-- The clean grouping walk, panelManager.js lines 390 to 445: the state
is seeded from the first window event, then the loop runs over ALL window
events, the first one included, and the last group is pushed at the end. -/
def cleanPass (wev : List WEvent) : List WGroup × Nat :=
  match wev with
  | [] => ([], 0)
  | e0 :: _ =>
      let fin := wev.foldl cleanStep { groups := [], cur := initGroup e0, warns := 0 }
      (fin.groups ++ [fin.cur], fin.warns)

/-- The surviving clean groups: more than one member event,
panelManager.js line 448. -/
def cleanGroupsOf (events : List WEvent) : List WGroup :=
  (cleanPass (windowEventsOf events)).1.filter fun g => 1 < g.events.length

/-- Window events not used by any surviving clean group, panelManager.js
lines 449 to 451. -/
def notUsedOf (events : List WEvent) : List WEvent :=
  (windowEventsOf events).filter fun e =>
    ¬ (cleanGroupsOf events).any fun g => g.events.contains e

/-- Holes between consecutive clean groups, panelManager.js
lines 466 to 472. -/
def betweenHoles : List WGroup → List (ℚ × ℚ)
  | a :: b :: rest =>
      (if a.endTime < b.startTime then [(a.endTime, b.startTime)] else []) ++
        betweenHoles (b :: rest)
  | _ => []

/-- The hole list, panelManager.js lines 458 to 480: a gap before the
first clean group, the gaps between consecutive clean groups, and a gap
after the last clean group, within the span from minT to maxT; a single
hole over the whole span when no clean group survives. -/
def computeHoles (cgs : List WGroup) (minT maxT : ℚ) : List (ℚ × ℚ) :=
  match cgs with
  | [] => [(minT, maxT)]
  | g0 :: rest =>
      (if minT < g0.startTime then [(minT, g0.startTime)] else []) ++
        betweenHoles (g0 :: rest) ++
        (if ((g0 :: rest).getLast (List.cons_ne_nil g0 rest)).endTime < maxT then
          [(((g0 :: rest).getLast (List.cons_ne_nil g0 rest)).endTime, maxT)]
        else [])

/-- The holes used by the engine, panelManager.js lines 454 to 480: the
span runs from the first sorted window event timestamp to the end of the
LAST sorted window event (its timestamp plus duration), not to the
maximal end over all events. -/
def holesOfEvents (events : List WEvent) : List (ℚ × ℚ) :=
  match windowEventsOf events with
  | [] => []
  | w0 :: ws =>
      computeHoles (cleanGroupsOf events) w0.timestamp
        (((w0 :: ws).getLast (List.cons_ne_nil w0 ws)).timestamp +
          ((w0 :: ws).getLast (List.cons_ne_nil w0 ws)).duration * 1000)

/-- State of the dirty grouping walk over one hole. -/
structure DirtyState where
  events : List WEvent
  titleDurations : List (String × ℚ)
  warns : Nat
deriving Repr

/-- One iteration of the dirty grouping loop, panelManager.js
lines 503 to 527: app identity is ignored; overlaps are resolved exactly
as in the clean walk but without touching durations. -/
def dirtyStep (st : DirtyState) (e : WEvent) : DirtyState :=
  match st.events.getLast? with
  | some lastEv =>
      if e.timestamp < lastEv.timestamp + lastEv.duration * 1000 then
        if lastEv.duration < e.duration then
          { st with events := st.events.dropLast ++ [e], warns := st.warns + 1 }
        else { st with warns := st.warns + 1 }
      else
        { st with
          events := st.events ++ [e]
          titleDurations := mapSet st.titleDurations (normalizeTitle e.title)
            (mapGetD st.titleDurations (normalizeTitle e.title) 0 + e.duration) }
  | none =>
      { st with
        events := st.events ++ [e]
        titleDurations := mapSet st.titleDurations (normalizeTitle e.title)
          (mapGetD st.titleDurations (normalizeTitle e.title) 0 + e.duration) }

/-- First-occurrence removal of .exe, the JS String.replace with a string
pattern, panelManager.js line 539. -/
def stripExe (s : String) : String :=
  match s.splitOn ".exe" with
  | [] => s
  | x :: rest =>
      match rest with
      | [] => x
      | _ => x ++ String.intercalate ".exe" rest

/-- Accumulated duration per app over the member events, panelManager.js
lines 535 to 538. -/
def appDurationsOf (evs : List WEvent) : List (String × ℚ) :=
  evs.foldl (fun m e => mapSet m e.app (mapGetD m e.app 0 + e.duration)) []

instance : DecidableRel fun a b : String × ℚ => b.2 ≤ a.2 :=
  fun a b => inferInstanceAs (Decidable (b.2 ≤ a.2))

/-- Synthesized filler label: one line per app, duration-descending,
panelManager.js line 539. -/
def dirtyLabel (evs : List WEvent) : String :=
  String.intercalate "<br>"
    ((List.insertionSort (fun a b : String × ℚ => b.2 ≤ a.2) (appDurationsOf evs)).map
      fun p => formatDuration p.2 true ++ " " ++ stripExe p.1)

/-- Leftover events intersecting a hole, sorted by time, panelManager.js
lines 485 to 489. -/
def holeEventsOf (hole : ℚ × ℚ) (notUsed : List WEvent) : List WEvent :=
  List.insertionSort (fun a b => a.timestamp ≤ b.timestamp)
    (notUsed.filter fun e =>
      e.timestamp < hole.2 ∧ hole.1 < e.timestamp + e.duration * 1000)

/-- The filler group built for one hole, panelManager.js lines 491 to 545:
started from the first hole event, folded over the remaining ones, with
endTime fixed to the hole end, totalDuration recomputed as the span from
the first hole event timestamp to the hole end, and discarded unless it
keeps more than one member event. -/
def dirtyGroupForHole (hole : ℚ × ℚ) (notUsed : List WEvent) : Option WGroup × Nat :=
  match holeEventsOf hole notUsed with
  | [] => (none, 0)
  | h0 :: rest =>
      let st0 : DirtyState :=
        { events := [h0]
          titleDurations := [(normalizeTitle h0.title, h0.duration)]
          warns := 0 }
      let stF := rest.foldl dirtyStep st0
      let g : WGroup :=
        { app := dirtyLabel stF.events
          startTime := h0.timestamp
          totalDuration := (hole.2 - h0.timestamp) / 1000
          titleDurations := stF.titleDurations
          events := stF.events
          endTime := hole.2
          uniqueApps := some ((stF.events.map fun e => e.app).dedup.length)
          id := "" }
      (if 1 < stF.events.length then some g else none, stF.warns)

/-- The filler groups over all holes, panelManager.js lines 483 to 546. -/
def dirtyPass (holes : List (ℚ × ℚ)) (notUsed : List WEvent) : List WGroup × Nat :=
  holes.foldl
    (fun acc hole =>
      match dirtyGroupForHole hole notUsed with
      | (some g, w) => (acc.1 ++ [g], acc.2 + w)
      | (none, w) => (acc.1, acc.2 + w))
    ([], 0)

/-- Group id string, panelManager.js lines 549 to 556; the uniqueApps
field participates only when JS-truthy (present and nonzero). -/
def mkGroupId (n : Nat) (g : WGroup) : String :=
  match g.uniqueApps with
  | some u =>
      if u = 0 then "group-" ++ toString n ++ "-" ++ toString g.events.length
      else "group-" ++ toString n ++ "-" ++ toString g.events.length ++ "-" ++ toString u
  | none => "group-" ++ toString n ++ "-" ++ toString g.events.length

/-- Final id assignment over the concatenated output. -/
def assignIds (gs : List WGroup) : List WGroup :=
  gs.enum.map fun p => { p.2 with id := mkGroupId (p.1 + 1) p.2 }

/-- The window-grouping engine, panelManager.js lines 379 to 559,
returning the output groups and the count of console.warn diagnostics. -/
def groupWindowWatcherEvents (events : List WEvent) : List WGroup × Nat :=
  let dirty := dirtyPass (holesOfEvents events) (notUsedOf events)
  (assignIds (cleanGroupsOf events ++ dirty.1),
    (cleanPass (windowEventsOf events)).2 + dirty.2)

/-- Provenance invariant for groups built by the clean walk: the start
time is the timestamp of some window event, the end time is the end of
some window event, and the uniqueApps marker is unset (it is set only on
filler groups). -/
def groupFromEvents (all : List WEvent) (g : WGroup) : Prop :=
  (∃ ev ∈ all, g.startTime = ev.timestamp) ∧
    (∃ ev ∈ all, g.endTime = ev.timestamp + ev.duration * 1000) ∧
    g.uniqueApps = none

/-- Concrete input used to settle claim C10: the first two samples share
a window of time (the second starts before the first ends and is longer),
the third is disjoint; no app repeats so no clean group survives. -/
def c10Input : List WEvent :=
  [{ bucket := "aw-watcher-window_X", timestamp := 0, duration := 1,
     app := "A.exe", title := "u" },
   { bucket := "aw-watcher-window_X", timestamp := 500, duration := 2,
     app := "B.exe", title := "v" },
   { bucket := "aw-watcher-window_X", timestamp := 10000, duration := 1,
     app := "C.exe", title := "w" }]

/-- The single filler group the engine outputs on c10Input. -/
def c10Group : WGroup :=
  { app := "02s B<br>01s C"
    startTime := 0
    totalDuration := 11
    titleDurations := [("u", 1), ("w", 1)]
    events := [{ bucket := "aw-watcher-window_X", timestamp := 500, duration := 2,
                 app := "B.exe", title := "v" },
               { bucket := "aw-watcher-window_X", timestamp := 10000, duration := 1,
                 app := "C.exe", title := "w" }]
    endTime := 11000
    uniqueApps := some 2
    id := "group-1-2-2" }

/-- Definition following the words of the specification, for comparison
with the code: the global time span runs from the minimum timestamp to
the maximum of timestamp plus duration over ALL samples, with the same
positional hole construction around the surviving clean groups. -/
def specHolesOfEvents (events : List WEvent) : List (ℚ × ℚ) :=
  match windowEventsOf events with
  | [] => []
  | w0 :: ws =>
      computeHoles (cleanGroupsOf events)
        ((w0 :: ws).foldl (fun acc e => min acc e.timestamp) w0.timestamp)
        ((w0 :: ws).foldl (fun acc e => max acc (e.timestamp + e.duration * 1000))
          (w0.timestamp + w0.duration * 1000))

/-- Concrete input used to settle claim C6: one clean group (app A,
two samples, covering 0 to 20000 ms), then three leftover singletons;
the sample at 25000 ms lasts 100 s, so the maximal end over all samples
(125000 ms) exceeds the end of the last-by-timestamp sample (31000 ms). -/
def c6Input : List WEvent :=
  [{ bucket := "aw-watcher-window_X", timestamp := 0, duration := 10,
     app := "A", title := "t" },
   { bucket := "aw-watcher-window_X", timestamp := 10000, duration := 10,
     app := "A", title := "t" },
   { bucket := "aw-watcher-window_X", timestamp := 21000, duration := 1,
     app := "B", title := "t" },
   { bucket := "aw-watcher-window_X", timestamp := 25000, duration := 100,
     app := "C", title := "t" },
   { bucket := "aw-watcher-window_X", timestamp := 30000, duration := 1,
     app := "D", title := "t" }]

/-- Concrete sample for the C6 witness. -/
def c6wEv : WEvent :=
  { bucket := "aw-watcher-window_X", timestamp := 0, duration := 1,
    app := "A", title := "t" }

/-- Stopwatch event as consumed by the report generator,
src/unnamed/part_004: bucket id, data.label (the empty string standing
for a missing label, which is JS-falsy), timestamp in ms, duration in
seconds, and the attached activity segments when present. -/
structure REvent where
  bucket : String
  label : String
  timestamp : ℚ
  duration : ℚ
  activitySegments : Option (List Segment)
deriving DecidableEq, Repr

/-- Label defaulting, part_004 line 16: data.label or Untitled. -/
def labelOf (e : REvent) : String :=
  if e.label = "" then "Untitled" else e.label

/-- Day key of an instant in ms: the UTC day number.  This abstracts
toISOString().split of part_004 line 34: two instants yield the same
ISO date string exactly when they fall on the same UTC day. -/
def dayKey (ms : ℚ) : ℤ :=
  ⌊ms / 86400000⌋

/-- Definition following the words of the specification, for comparison
with the code: the LOCAL calendar date of an instant, for an environment
whose timezone is offset from UTC by the given number of milliseconds. -/
def dayKeyLocal (tzOffsetMs : ℚ) (ms : ℚ) : ℤ :=
  ⌊(ms + tzOffsetMs) / 86400000⌋

/-- Accumulated per-task state, part_004 lines 19 to 25. -/
structure TaskAcc where
  label : String
  totalCleanTime : ℚ
  dailyBreakdown : List (ℤ × ℚ)
  startDate : Option ℚ
  endDate : Option ℚ
deriving DecidableEq, Repr

/-- Fresh task accumulator, part_004 lines 19 to 25. -/
def initAcc (l : String) : TaskAcc :=
  { label := l, totalCleanTime := 0, dailyBreakdown := [],
    startDate := none, endDate := none }

/-- JS Map day-keyed accumulation: add to a present entry in place,
append a new entry otherwise, part_004 line 35. -/
def mapAddZ : List (ℤ × ℚ) → ℤ → ℚ → List (ℤ × ℚ)
  | [], k, v => [(k, v)]
  | (k2, v2) :: rest, k, v =>
      if k2 = k then (k2, v2 + v) :: rest else (k2, v2) :: mapAddZ rest k v

/-- Processing of one activity segment, part_004 lines 30 to 37: only
not-afk segments contribute, to the total and to the day bucket of the
segment start. -/
def applySegment (acc : TaskAcc) (seg : Segment) : TaskAcc :=
  if seg.status = "not-afk" then
    { acc with
      totalCleanTime := acc.totalCleanTime + seg.duration
      dailyBreakdown := mapAddZ acc.dailyBreakdown (dayKey seg.startTimestamp) seg.duration }
  else acc

/-- Start and end date update, part_004 lines 39 to 46. -/
def updateDates (acc : TaskAcc) (e : REvent) : TaskAcc :=
  { acc with
    startDate :=
      match acc.startDate with
      | none => some e.timestamp
      | some s => if e.timestamp < s then some e.timestamp else some s
    endDate :=
      match acc.endDate with
      | none => some (e.timestamp + e.duration * 1000)
      | some en =>
          if en < e.timestamp + e.duration * 1000 then
            some (e.timestamp + e.duration * 1000)
          else some en }

/-- Processing of one stopwatch event into its accumulator. -/
def applyEvent (acc : TaskAcc) (e : REvent) : TaskAcc :=
  updateDates ((e.activitySegments.getD []).foldl applySegment acc) e

/-- JS Map upsert into the task map, part_004 lines 18 to 28: the entry
for the label is updated in place when present and appended otherwise. -/
def processInto : List (String × TaskAcc) → String → REvent → List (String × TaskAcc)
  | [], l, e => [(l, applyEvent (initAcc l) e)]
  | (l2, a) :: rest, l, e =>
      if l2 = l then (l2, applyEvent a e) :: rest
      else (l2, a) :: processInto rest l e

/-- Row of the final report, part_004 lines 50 to 66.  The daily
breakdown keeps the (UTC day, accumulated seconds) pairs sorted by day;
the human-readable date and duration rendering of the source is not
modelled beyond the formatted total. -/
structure TaskReportRow where
  label : String
  totalCleanTimeFormatted : String
  totalCleanTimeRaw : ℚ
  dailyBreakdown : List (ℤ × ℚ)
deriving DecidableEq, Repr

instance : DecidableRel fun a b : ℤ × ℚ => a.1 ≤ b.1 :=
  fun a b => inferInstanceAs (Decidable (a.1 ≤ b.1))

instance : DecidableRel fun a b : TaskReportRow => b.totalCleanTimeRaw ≤ a.totalCleanTimeRaw :=
  fun a b => inferInstanceAs (Decidable (b.totalCleanTimeRaw ≤ a.totalCleanTimeRaw))

/-- Events the report consumes, part_004 line 12: stopwatch bucket with
attached activity segments. -/
def reportEventsOf (events : List REvent) : List REvent :=
  events.filter fun e => e.bucket.startsWith "aw-stopwatch" && e.activitySegments.isSome

/-- The report generator, part_004 lines 9 to 69: fold all stopwatch
events into the per-label map, convert each accumulator to a row with
its daily breakdown sorted by day, and sort rows by descending total
clean time. -/
def generateTaskReport (events : List REvent) : List TaskReportRow :=
  ((reportEventsOf events).foldl (fun m e => processInto m (labelOf e) e) []).map
    (fun p =>
      { label := p.2.label
        totalCleanTimeFormatted := formatDuration p.2.totalCleanTime false
        totalCleanTimeRaw := p.2.totalCleanTime
        dailyBreakdown :=
          List.insertionSort (fun a b : ℤ × ℚ => a.1 ≤ b.1) p.2.dailyBreakdown }) |>
    List.insertionSort (fun a b : TaskReportRow => b.totalCleanTimeRaw ≤ a.totalCleanTimeRaw)

/-- Active segments of one report event. -/
def activeSegsOf (e : REvent) : List Segment :=
  (e.activitySegments.getD []).filter fun s => s.status = "not-afk"

/-- Specification of the clean time of a label: the summed durations of
the active segments over all consumed events carrying that label. -/
def cleanTimeSpec (events : List REvent) (l : String) : ℚ :=
  ((((reportEventsOf events).filter fun e => labelOf e = l).flatMap activeSegsOf).map
    Segment.duration).sum

/-- Specification of the per-day clean time of a label: as cleanTimeSpec,
restricted to segments starting on the given UTC day. -/
def dailySpec (events : List REvent) (l : String) (d : ℤ) : ℚ :=
  (((((reportEventsOf events).filter fun e => labelOf e = l).flatMap activeSegsOf).filter
    fun s => dayKey s.startTimestamp = d).map Segment.duration).sum

/-- Total recorded in a day-keyed list for one day. -/
def dayTotal (m : List (ℤ × ℚ)) (d : ℤ) : ℚ :=
  ((m.filter fun p => p.1 = d).map Prod.snd).sum

/-- Sum of the active segment durations of a segment list. -/
def activeDurSum (segs : List Segment) : ℚ :=
  ((segs.filter fun s => s.status = "not-afk").map Segment.duration).sum

/-- Sum of the active segment durations starting on one UTC day. -/
def activeDayDurSum (segs : List Segment) (d : ℤ) : ℚ :=
  (((segs.filter fun s => s.status = "not-afk").filter
    fun s => dayKey s.startTimestamp = d).map Segment.duration).sum

/-- Per-label total of a measure over the task map entries. -/
def partOf (μ : TaskAcc → ℚ) (m : List (String × TaskAcc)) (l : String) : ℚ :=
  ((m.filter fun p => p.1 = l).map fun p => μ p.2).sum

/-- Keys of the task map. -/
def keysOf (m : List (String × TaskAcc)) : List String :=
  m.map Prod.fst

/-- Concrete input used to settle claim C8: one active segment starting
at 23:00 UTC on day 0 (1970-01-01T23:00Z). -/
def c8Event : REvent :=
  { bucket := "aw-stopwatch", label := "T", timestamp := 82800000, duration := 3600,
    activitySegments :=
      some [{ startTimestamp := 82800000, duration := 3600, status := "not-afk" }] }

/-- The single report row generated for c8Event. -/
def c8Row : TaskReportRow :=
  { label := "T", totalCleanTimeFormatted := "1h 00m", totalCleanTimeRaw := 3600,
    dailyBreakdown := [(0, 3600)] }

/-- In a list sorted by a reflexive relation the head is related to
every member. -/
theorem sorted_head_rel {α : Type} {r : α → α → Prop} (hrefl : ∀ a, r a a)
    {b : α} {t : List α} (hs : (b :: t).Sorted r) :
    ∀ x ∈ b :: t, r b x := by
  intro x hx
  rcases List.mem_cons.mp hx with rfl | hx
  · exact hrefl x
  · exact List.rel_of_sorted_cons hs x hx

/-- In a list sorted by a reflexive relation every member is related to
the last element. -/
theorem sorted_rel_getLast {α : Type} {r : α → α → Prop} (hrefl : ∀ a, r a a) :
    ∀ {l : List α} (h : l ≠ []), l.Sorted r → ∀ x ∈ l, r x (l.getLast h) := by
  intro l
  induction l with
  | nil => intro h; cases h rfl
  | cons b t ih =>
      intro _ hs x hx
      cases t with
      | nil =>
          simp only [List.mem_singleton] at hx
          subst hx
          exact hrefl x
      | cons c t2 =>
          rw [List.getLast_cons (by simp)]
          rcases List.mem_cons.mp hx with rfl | hx
          · exact List.rel_of_sorted_cons hs _
              (List.getLast_mem (List.cons_ne_nil c t2))
          · exact ih (List.cons_ne_nil c t2) hs.of_cons x hx

/-- Sum of the raw segments over an ascending chain of split points
telescopes to the overall span divided by 1000. -/
theorem rawSegments_sum (ov : List AfkEvent) :
    ∀ (rest : List ℚ) (a : ℚ), (a :: rest).Chain' (· ≤ ·) →
      segSum (rawSegments ov (a :: rest)) =
        ((a :: rest).getLast (List.cons_ne_nil a rest) - a) / 1000 := by
  intro rest
  induction rest with
  | nil =>
      intro a _
      simp [rawSegments, segSum]
  | cons b rest2 ih =>
      intro a hchain
      have hab : a ≤ b := (List.chain'_cons.mp hchain).1
      have hbc : (b :: rest2).Chain' (· ≤ ·) := (List.chain'_cons.mp hchain).2
      have hlast : (a :: b :: rest2).getLast (List.cons_ne_nil a (b :: rest2)) =
          (b :: rest2).getLast (List.cons_ne_nil b rest2) := by
        simp [List.getLast]
      rw [hlast]
      by_cases hba : b ≤ a
      · have heq : a = b := le_antisymm hab hba
        rw [show rawSegments ov (a :: b :: rest2) = rawSegments ov (b :: rest2) by
          simp [rawSegments, hba]]
        rw [ih b hbc, heq]
      · rw [show rawSegments ov (a :: b :: rest2) =
              mkSegment ov a b :: rawSegments ov (b :: rest2) by
            simp [rawSegments, hba]]
        have : segSum (mkSegment ov a b :: rawSegments ov (b :: rest2)) =
            (b - a) / 1000 + segSum (rawSegments ov (b :: rest2)) := by
          simp [segSum, mkSegment]
        rw [this, ih b hbc]
        ring

/-- Merging adds the duration of the pending segment to the tail sum. -/
theorem mergeSegs_sum : ∀ (l : List Segment) (cur : Segment),
    segSum (mergeSegs cur l) = cur.duration + segSum l := by
  intro l
  induction l with
  | nil => intro cur; simp [mergeSegs, segSum]
  | cons s rest ih =>
      intro cur
      by_cases h : s.status = cur.status
      · rw [show mergeSegs cur (s :: rest) =
            mergeSegs { cur with duration := cur.duration + s.duration } rest by
          simp [mergeSegs, h]]
        rw [ih]
        simp only [segSum, List.map_cons, List.sum_cons]
        ring
      · rw [show mergeSegs cur (s :: rest) = cur :: mergeSegs s rest by
          simp [mergeSegs, h]]
        have hco : segSum (cur :: mergeSegs s rest) =
            cur.duration + segSum (mergeSegs s rest) := by
          simp [segSum]
        rw [hco, ih]
        simp only [segSum, List.map_cons, List.sum_cons]
        try ring

/-- Merging preserves the total duration. -/
theorem mergeSegments_sum (l : List Segment) : segSum (mergeSegments l) = segSum l := by
  cases l with
  | nil => rfl
  | cons s rest =>
      rw [show mergeSegments (s :: rest) = mergeSegs s rest from rfl, mergeSegs_sum]
      simp [segSum]

/-- Members of the sorted split-point list are exactly the inserted points. -/
theorem mem_sortedSplitPoints {sw : SWEvent} {afks : List AfkEvent} {now x : ℚ} :
    x ∈ sortedSplitPoints sw afks now ↔ x ∈ splitPointsList sw afks now := by
  unfold sortedSplitPoints
  rw [(List.perm_insertionSort _ _).mem_iff, List.mem_dedup]

/-- The sorted split points are sorted. -/
theorem sorted_sortedSplitPoints (sw : SWEvent) (afks : List AfkEvent) (now : ℚ) :
    (sortedSplitPoints sw afks now).Sorted (· ≤ ·) :=
  List.sorted_insertionSort _ _

/-- The sorted split points contain no duplicates. -/
theorem nodup_sortedSplitPoints (sw : SWEvent) (afks : List AfkEvent) (now : ℚ) :
    (sortedSplitPoints sw afks now).Nodup :=
  (List.perm_insertionSort _ _).nodup_iff.mpr (List.nodup_dedup _)

/-- Bounds for split points when the task window is non-degenerate. -/
theorem splitPoints_bounds {sw : SWEvent} {afks : List AfkEvent} {now : ℚ}
    (h : sw.timestamp ≤ effectiveEnd sw now) :
    ∀ x ∈ splitPointsList sw afks now,
      sw.timestamp ≤ x ∧ x ≤ effectiveEnd sw now := by
  intro x hx
  unfold splitPointsList at hx
  rcases List.mem_append.mp hx with hx | hx
  · rcases List.mem_cons.mp hx with rfl | hx
    · exact ⟨le_refl _, h⟩
    · simp only [List.mem_singleton] at hx
      subst hx
      exact ⟨h, le_refl _⟩
  · rcases List.mem_flatMap.mp hx with ⟨afk, _, hmem⟩
    rcases List.mem_append.mp hmem with hm | hm
    · split_ifs at hm with hcond
      · simp only [List.mem_singleton] at hm
        subst hm
        exact ⟨le_of_lt hcond.1, le_of_lt hcond.2⟩
      · cases hm
    · split_ifs at hm with hcond
      · simp only [List.mem_singleton] at hm
        subst hm
        exact ⟨le_of_lt hcond.1, le_of_lt hcond.2⟩
      · cases hm

/-- The task start is a split point. -/
theorem start_mem_splitPoints (sw : SWEvent) (afks : List AfkEvent) (now : ℚ) :
    sw.timestamp ∈ splitPointsList sw afks now := by
  unfold splitPointsList
  exact List.mem_append_left _ (List.mem_cons_self _ _)

/-- The effective task end is a split point. -/
theorem end_mem_splitPoints (sw : SWEvent) (afks : List AfkEvent) (now : ℚ) :
    effectiveEnd sw now ∈ splitPointsList sw afks now := by
  unfold splitPointsList
  exact List.mem_append_left _ (List.mem_cons_of_mem _ (List.mem_cons_self _ _))

/-- Claim C1 (coverage).  For every task and every presence list the
durations of the computed activity segments sum to the task total
duration, where a running task is measured up to now; stated under the
non-degeneracy assumption that the effective end does not precede the
start (durations are nonnegative in the data model). -/
theorem c1_coverage (sw : SWEvent) (afks : List AfkEvent) (now : ℚ)
    (h : sw.timestamp ≤ effectiveEnd sw now) :
    segSum (segmentsForEvent sw afks now) =
        (effectiveEnd sw now - sw.timestamp) / 1000 ∧
      (sw.running = false → segSum (segmentsForEvent sw afks now) = sw.duration) := by
  have hmain : segSum (segmentsForEvent sw afks now) =
      (effectiveEnd sw now - sw.timestamp) / 1000 := by
    have hsorted := sorted_sortedSplitPoints sw afks now
    have hne : sortedSplitPoints sw afks now ≠ [] := by
      intro hnil
      have := mem_sortedSplitPoints.mpr (start_mem_splitPoints sw afks now)
      rw [hnil] at this
      cases this
    obtain ⟨p0, rest, hcons⟩ := List.exists_cons_of_ne_nil hne
    have hsorted2 : (p0 :: rest).Sorted (· ≤ ·) := hcons ▸ hsorted
    have hstart_mem : sw.timestamp ∈ p0 :: rest := by
      rw [← hcons]
      exact mem_sortedSplitPoints.mpr (start_mem_splitPoints sw afks now)
    have hend_mem : effectiveEnd sw now ∈ p0 :: rest := by
      rw [← hcons]
      exact mem_sortedSplitPoints.mpr (end_mem_splitPoints sw afks now)
    have hbounds : ∀ x ∈ p0 :: rest, sw.timestamp ≤ x ∧ x ≤ effectiveEnd sw now := by
      intro x hx
      refine @splitPoints_bounds sw afks now h x (mem_sortedSplitPoints.mp ?_)
      rw [hcons]
      exact hx
    have hp0 : p0 = sw.timestamp := by
      refine le_antisymm ?_ (hbounds p0 (List.mem_cons_self p0 rest)).1
      exact sorted_head_rel (fun a => le_refl a) hsorted2 sw.timestamp hstart_mem
    have hchain : (p0 :: rest).Chain' (· ≤ ·) := hsorted2.chain'
    have hsum := rawSegments_sum (overlappingAfk sw afks now) rest p0 hchain
    have hlast2 : (p0 :: rest).getLast (List.cons_ne_nil p0 rest) = effectiveEnd sw now := by
      refine le_antisymm
        (hbounds _ (List.getLast_mem (List.cons_ne_nil p0 rest))).2 ?_
      exact sorted_rel_getLast (fun a => le_refl a) (List.cons_ne_nil p0 rest)
        hsorted2 _ hend_mem
    unfold segmentsForEvent
    rw [mergeSegments_sum, hcons, hsum, hlast2, hp0]
  refine ⟨hmain, fun hrun => ?_⟩
  rw [hmain]
  unfold effectiveEnd
  rw [hrun]
  simp only [Bool.false_eq_true, if_false]
  rw [show sw.timestamp + sw.duration * 1000 - sw.timestamp = sw.duration * 1000 by ring]
  exact mul_div_cancel_right₀ sw.duration (by norm_num)

/-- Witness for claim C1 at a concrete input. -/
theorem c1_coverage_witness :
    ({ timestamp := 0, duration := 2, running := false } : SWEvent).timestamp ≤
        effectiveEnd { timestamp := 0, duration := 2, running := false } 0 ∧
      segSum (segmentsForEvent { timestamp := 0, duration := 2, running := false }
          [{ timestamp := -500, duration := 1, status := "afk" }] 0) =
        (effectiveEnd { timestamp := 0, duration := 2, running := false } 0 - 0) / 1000 ∧
      segSum (segmentsForEvent { timestamp := 0, duration := 2, running := false }
          [{ timestamp := -500, duration := 1, status := "afk" }] 0) = 2 :=
  ⟨by norm_num [effectiveEnd],
    (c1_coverage { timestamp := 0, duration := 2, running := false }
      [{ timestamp := -500, duration := 1, status := "afk" }] 0
      (by norm_num [effectiveEnd])).1,
    (c1_coverage { timestamp := 0, duration := 2, running := false }
      [{ timestamp := -500, duration := 1, status := "afk" }] 0
      (by norm_num [effectiveEnd])).2 rfl⟩

/-- Unfolding lemma for a strictly increasing leading pair. -/
theorem rawSegments_cons (ov : List AfkEvent) (a b : ℚ) (rest : List ℚ) (h : a < b) :
    rawSegments ov (a :: b :: rest) = mkSegment ov a b :: rawSegments ov (b :: rest) := by
  simp [rawSegments, not_le.mpr h]

/-- The head of the raw segments over points starting at b starts at b. -/
theorem rawSegments_head_start (ov : List AfkEvent) :
    ∀ (b : ℚ) (rest : List ℚ), (b :: rest).Chain' (· < ·) →
      ∀ s ∈ (rawSegments ov (b :: rest)).head?, s.startTimestamp = b := by
  intro b rest hchain s hs
  cases rest with
  | nil =>
      simp [rawSegments] at hs
  | cons c rest2 =>
      have hbc : b < c := (List.chain'_cons.mp hchain).1
      rw [rawSegments_cons ov b c rest2 hbc] at hs
      simp only [List.head?_cons, Option.mem_def, Option.some.injEq] at hs
      rw [← hs]
      rfl

/-- Raw segments over strictly increasing split points form a gapless
chain. -/
theorem rawSegments_gap (ov : List AfkEvent) :
    ∀ (pts : List ℚ), pts.Chain' (· < ·) → (rawSegments ov pts).Chain' gapRel := by
  intro pts
  induction pts with
  | nil => intro _; simp [rawSegments]
  | cons a rest ih =>
      intro hchain
      cases rest with
      | nil => simp [rawSegments]
      | cons b rest2 =>
          have hab : a < b := (List.chain'_cons.mp hchain).1
          have htail : (b :: rest2).Chain' (· < ·) := (List.chain'_cons.mp hchain).2
          rw [rawSegments_cons ov a b rest2 hab]
          rw [List.chain'_cons']
          refine ⟨?_, ih htail⟩
          intro y hy
          have hstart : y.startTimestamp = b := rawSegments_head_start ov b rest2 htail y hy
          unfold gapRel mkSegment
          simp only [hstart]
          rw [div_mul_cancel₀ (b - a) (by norm_num : (1000 : ℚ) ≠ 0)]
          ring

/-- Raw segments over strictly increasing split points have positive
durations. -/
theorem rawSegments_pos (ov : List AfkEvent) :
    ∀ (pts : List ℚ), pts.Chain' (· < ·) → ∀ s ∈ rawSegments ov pts, 0 < s.duration := by
  intro pts
  induction pts with
  | nil => intro _ s hs; simp [rawSegments] at hs
  | cons a rest ih =>
      intro hchain s hs
      cases rest with
      | nil => simp [rawSegments] at hs
      | cons b rest2 =>
          have hab : a < b := (List.chain'_cons.mp hchain).1
          have htail : (b :: rest2).Chain' (· < ·) := (List.chain'_cons.mp hchain).2
          rw [rawSegments_cons ov a b rest2 hab] at hs
          rcases List.mem_cons.mp hs with rfl | hs
          · show 0 < (b - a) / 1000
            exact div_pos (sub_pos.mpr hab) (by norm_num)
          · exact ih htail s hs

/-- Structure of the merge loop: starting from a pending segment over a
gapless positive-duration chain it yields a nonempty gapless
positive-duration chain whose adjacent statuses differ, preserving the
start and status of the pending segment. -/
theorem mergeSegs_spec : ∀ (l : List Segment) (cur : Segment),
    (cur :: l).Chain' gapRel → (∀ s ∈ cur :: l, 0 < s.duration) →
    ∃ hd tl, mergeSegs cur l = hd :: tl ∧
      hd.startTimestamp = cur.startTimestamp ∧ hd.status = cur.status ∧
      (hd :: tl).Chain' gapRel ∧
      (hd :: tl).Chain' (fun a b => a.status ≠ b.status) ∧
      (∀ s ∈ hd :: tl, 0 < s.duration) := by
  intro l
  induction l with
  | nil =>
      intro cur _ hpos
      exact ⟨cur, [], rfl, rfl, rfl, List.chain'_singleton _, List.chain'_singleton _, hpos⟩
  | cons s rest ih =>
      intro cur hchain hpos
      have hgap1 : gapRel cur s := (List.chain'_cons.mp hchain).1
      have hchain2 : (s :: rest).Chain' gapRel := (List.chain'_cons.mp hchain).2
      by_cases h : s.status = cur.status
      · have hmerge : mergeSegs cur (s :: rest) =
            mergeSegs { cur with duration := cur.duration + s.duration } rest := by
          simp [mergeSegs, h]
        have hchain3 :
            ({ cur with duration := cur.duration + s.duration } :: rest).Chain' gapRel := by
          rw [List.chain'_cons']
          refine ⟨?_, (List.chain'_cons'.mp hchain2).2⟩
          intro y hy
          have hsy : gapRel s y := (List.chain'_cons'.mp hchain2).1 y hy
          unfold gapRel at hgap1 hsy ⊢
          simp only []
          rw [show cur.startTimestamp + (cur.duration + s.duration) * 1000 =
              cur.startTimestamp + cur.duration * 1000 + s.duration * 1000 by ring]
          rw [hgap1, hsy]
        have hpos3 : ∀ t ∈ { cur with duration := cur.duration + s.duration } :: rest,
            0 < t.duration := by
          intro t ht
          rcases List.mem_cons.mp ht with rfl | ht
          · show 0 < cur.duration + s.duration
            exact add_pos (hpos cur (List.mem_cons_self _ _))
              (hpos s (List.mem_cons_of_mem _ (List.mem_cons_self _ _)))
          · exact hpos t (List.mem_cons_of_mem _ (List.mem_cons_of_mem _ ht))
        obtain ⟨hd, tl, heq, hstart, hstat, hg, hne, hp⟩ :=
          ih { cur with duration := cur.duration + s.duration } hchain3 hpos3
        exact ⟨hd, tl, hmerge.trans heq, hstart, hstat, hg, hne, hp⟩
      · have hmerge : mergeSegs cur (s :: rest) = cur :: mergeSegs s rest := by
          simp [mergeSegs, h]
        have hpos2 : ∀ t ∈ s :: rest, 0 < t.duration := by
          intro t ht
          exact hpos t (List.mem_cons_of_mem _ ht)
        obtain ⟨hd, tl, heq, hstart, hstat, hg, hne, hp⟩ := ih s hchain2 hpos2
        refine ⟨cur, hd :: tl, by rw [hmerge, heq], rfl, rfl, ?_, ?_, ?_⟩
        · rw [List.chain'_cons]
          refine ⟨?_, hg⟩
          unfold gapRel at hgap1 ⊢
          rw [hstart]
          exact hgap1
        · rw [List.chain'_cons]
          refine ⟨?_, hne⟩
          rw [hstat]
          exact fun hcontra => h hcontra.symm
        · intro t ht
          rcases List.mem_cons.mp ht with rfl | ht
          · exact hpos t (List.mem_cons_self _ _)
          · exact hp t ht

/-- A gapless chain of positive-duration segments has strictly
increasing start times. -/
theorem chain_start_lt :
    ∀ (l : List Segment), l.Chain' gapRel → (∀ s ∈ l, 0 < s.duration) →
      l.Chain' (fun a b => a.startTimestamp < b.startTimestamp) := by
  intro l
  induction l with
  | nil => intro _ _; simp
  | cons a rest ih =>
      intro hchain hpos
      rw [List.chain'_cons'] at hchain ⊢
      refine ⟨?_, ih hchain.2 fun s hs => hpos s (List.mem_cons_of_mem _ hs)⟩
      intro y hy
      have hgap := hchain.1 y hy
      unfold gapRel at hgap
      rw [← hgap]
      have : 0 < a.duration * 1000 :=
        mul_pos (hpos a (List.mem_cons_self _ _)) (by norm_num)
      linarith

/-- The sorted split points are strictly increasing. -/
theorem chain_lt_sortedSplitPoints (sw : SWEvent) (afks : List AfkEvent) (now : ℚ) :
    (sortedSplitPoints sw afks now).Chain' (· < ·) := by
  have hs := sorted_sortedSplitPoints sw afks now
  have hn := nodup_sortedSplitPoints sw afks now
  have hpair : (sortedSplitPoints sw afks now).Pairwise (· < ·) := by
    have hand := List.pairwise_and_iff.mpr ⟨hs, hn⟩
    exact hand.imp fun hab => lt_of_le_of_ne hab.1 hab.2
  exact hpair.chain'

/-- Claim C2 (gaplessness, order, maximal merge).  For every task and
presence list the output segments have strictly increasing start times,
each segment ends in milliseconds exactly where the next starts, and no
two adjacent segments share a status. -/
theorem c2_segment_invariants (sw : SWEvent) (afks : List AfkEvent) (now : ℚ) :
    (segmentsForEvent sw afks now).Pairwise
        (fun a b => a.startTimestamp < b.startTimestamp) ∧
      (segmentsForEvent sw afks now).Chain' gapRel ∧
      (segmentsForEvent sw afks now).Chain' (fun a b => a.status ≠ b.status) := by
  have hlt := chain_lt_sortedSplitPoints sw afks now
  have hgap := rawSegments_gap (overlappingAfk sw afks now) _ hlt
  have hpos := rawSegments_pos (overlappingAfk sw afks now) _ hlt
  unfold segmentsForEvent
  cases hraw : rawSegments (overlappingAfk sw afks now) (sortedSplitPoints sw afks now) with
  | nil => simp [mergeSegments]
  | cons s rest =>
      rw [hraw] at hgap hpos
      obtain ⟨hd, tl, heq, _, _, hg, hne, hp⟩ := mergeSegs_spec rest s hgap hpos
      rw [show mergeSegments (s :: rest) = mergeSegs s rest from rfl, heq]
      refine ⟨?_, hg, hne⟩
      rw [← List.chain'_iff_pairwise]
      exact chain_start_lt (hd :: tl) hg hp

/-- The latest-start fold, expressed with the named step. -/
theorem latestStart_eq_foldl (l : List AfkEvent) :
    latestStart l = l.foldl latestStep none := by
  unfold latestStart
  congr 1

/-- Auxiliary specification of the latest-start fold from a seeded
accumulator. -/
theorem latestStep_foldl_spec :
    ∀ (l : List AfkEvent) (a : AfkEvent),
      ∃ c, l.foldl latestStep (some a) = some c ∧ (c = a ∨ c ∈ l) ∧
        a.timestamp ≤ c.timestamp ∧ ∀ b ∈ l, b.timestamp ≤ c.timestamp := by
  intro l
  induction l with
  | nil => intro a; exact ⟨a, rfl, Or.inl rfl, le_refl _, by simp⟩
  | cons x xs ih =>
      intro a
      by_cases hax : a.timestamp < x.timestamp
      · have hstep : latestStep (some a) x = some x := by
          simp [latestStep, hax]
        obtain ⟨c, hc, hcmem, hxc, hub⟩ := ih x
        refine ⟨c, ?_, ?_, le_trans (le_of_lt hax) hxc, ?_⟩
        · rw [List.foldl_cons, hstep]
          exact hc
        · rcases hcmem with rfl | hcm
          · exact Or.inr (List.mem_cons_self _ _)
          · exact Or.inr (List.mem_cons_of_mem _ hcm)
        · intro b hb
          rcases List.mem_cons.mp hb with rfl | hb
          · exact hxc
          · exact hub b hb
      · have hstep : latestStep (some a) x = some a := by
          simp [latestStep, hax]
        obtain ⟨c, hc, hcmem, hac, hub⟩ := ih a
        refine ⟨c, ?_, ?_, hac, ?_⟩
        · rw [List.foldl_cons, hstep]
          exact hc
        · rcases hcmem with rfl | hcm
          · exact Or.inl rfl
          · exact Or.inr (List.mem_cons_of_mem _ hcm)
        · intro b hb
          rcases List.mem_cons.mp hb with rfl | hb
          · exact le_trans (not_lt.mp hax) hac
          · exact hub b hb

/-- On a nonempty list the latest-start fold returns a member whose
timestamp bounds every member. -/
theorem latestStart_spec (l : List AfkEvent) (h : l ≠ []) :
    ∃ a, latestStart l = some a ∧ a ∈ l ∧ ∀ b ∈ l, b.timestamp ≤ a.timestamp := by
  obtain ⟨x, xs, rfl⟩ := List.exists_cons_of_ne_nil h
  obtain ⟨c, hc, hcmem, _, hub⟩ := latestStep_foldl_spec xs x
  refine ⟨c, ?_, ?_, ?_⟩
  · rw [latestStart_eq_foldl, List.foldl_cons]
    exact hc
  · rcases hcmem with rfl | hcm
    · exact List.mem_cons_self _ _
    · exact List.mem_cons_of_mem _ hcm
  · intro b hb
    rcases List.mem_cons.mp hb with rfl | hb
    · obtain ⟨c2, hc2, _, hxc, _⟩ := latestStep_foldl_spec xs b
      rw [hc2] at hc
      cases hc
      exact hxc
    · exact hub b hb

/-- Every raw segment is built from a strictly increasing pair of split
points. -/
theorem rawSegments_mem (ov : List AfkEvent) :
    ∀ (pts : List ℚ) (s : Segment), s ∈ rawSegments ov pts →
      ∃ a b, a < b ∧ s = mkSegment ov a b := by
  intro pts
  induction pts with
  | nil => intro s hs; simp [rawSegments] at hs
  | cons a rest ih =>
      intro s hs
      cases rest with
      | nil => simp [rawSegments] at hs
      | cons b rest2 =>
          by_cases hba : b ≤ a
          · rw [show rawSegments ov (a :: b :: rest2) = rawSegments ov (b :: rest2) by
              simp [rawSegments, hba]] at hs
            exact ih s hs
          · rw [rawSegments_cons ov a b rest2 (not_le.mp hba)] at hs
            rcases List.mem_cons.mp hs with rfl | hs
            · exact ⟨a, b, not_le.mp hba, rfl⟩
            · exact ih s hs

/-- The midpoint used by the engine, recovered from a raw segment. -/
theorem mkSegment_midpoint (ov : List AfkEvent) (a b : ℚ) :
    (mkSegment ov a b).startTimestamp + (mkSegment ov a b).duration * 1000 / 2 =
      a + (b - a) / 2 := by
  show a + (b - a) / 1000 * 1000 / 2 = a + (b - a) / 2
  rw [div_mul_cancel₀ (b - a) (by norm_num : (1000 : ℚ) ≠ 0)]

/-- Claim C3 (midpoint status assignment).  Every raw segment carries the
status of the overlapping presence interval with the latest start among
those covering the segment midpoint, and defaults to not-afk when no
presence interval covers the midpoint. -/
theorem c3_midpoint_status (sw : SWEvent) (afks : List AfkEvent) (now : ℚ)
    (s : Segment)
    (hs : s ∈ rawSegments (overlappingAfk sw afks now) (sortedSplitPoints sw afks now)) :
    (coveringAfk (overlappingAfk sw afks now)
        (s.startTimestamp + s.duration * 1000 / 2) = [] → s.status = "not-afk") ∧
      (coveringAfk (overlappingAfk sw afks now)
          (s.startTimestamp + s.duration * 1000 / 2) ≠ [] →
        ∃ a ∈ coveringAfk (overlappingAfk sw afks now)
            (s.startTimestamp + s.duration * 1000 / 2),
          s.status = a.status ∧
            ∀ b ∈ coveringAfk (overlappingAfk sw afks now)
                (s.startTimestamp + s.duration * 1000 / 2),
              b.timestamp ≤ a.timestamp) := by
  obtain ⟨a, b, hab, rfl⟩ := rawSegments_mem (overlappingAfk sw afks now) _ s hs
  rw [mkSegment_midpoint]
  constructor
  · intro hcov
    show segmentStatus (overlappingAfk sw afks now) (a + (b - a) / 2) = "not-afk"
    unfold segmentStatus
    rw [hcov]
    rfl
  · intro hcov
    obtain ⟨c, hc, hcmem, hub⟩ :=
      latestStart_spec (coveringAfk (overlappingAfk sw afks now) (a + (b - a) / 2)) hcov
    refine ⟨c, hcmem, ?_, hub⟩
    show segmentStatus (overlappingAfk sw afks now) (a + (b - a) / 2) = c.status
    unfold segmentStatus
    rw [hc]

/-- Witness for claim C3 at a concrete input. -/
theorem c3_midpoint_status_witness :
    ({ startTimestamp := 0, duration := 2, status := "not-afk" } : Segment) ∈
        rawSegments
          (overlappingAfk { timestamp := 0, duration := 2, running := false } [] 0)
          (sortedSplitPoints { timestamp := 0, duration := 2, running := false } [] 0) ∧
      (coveringAfk (overlappingAfk { timestamp := 0, duration := 2, running := false } [] 0)
          ((0 : ℚ) + 2 * 1000 / 2) = [] →
        ({ startTimestamp := 0, duration := 2, status := "not-afk" } : Segment).status =
          "not-afk") := by
  have hmem : ({ startTimestamp := 0, duration := 2, status := "not-afk" } : Segment) ∈
      rawSegments
        (overlappingAfk { timestamp := 0, duration := 2, running := false } [] 0)
        (sortedSplitPoints { timestamp := 0, duration := 2, running := false } [] 0) := by
    rw [show rawSegments
        (overlappingAfk { timestamp := 0, duration := 2, running := false } [] 0)
        (sortedSplitPoints { timestamp := 0, duration := 2, running := false } [] 0) =
        [{ startTimestamp := 0, duration := 2, status := "not-afk" }] by
      with_unfolding_all rfl]
    exact List.mem_singleton.mpr rfl
  refine ⟨hmem, ?_⟩
  intro hcov
  exact (c3_midpoint_status { timestamp := 0, duration := 2, running := false } [] 0
    _ hmem).1 hcov

/-- Degenerate tasks produce no segments: when the effective end equals
the start the split points collapse to a single point. -/
theorem segmentsForEvent_degenerate (sw : SWEvent) (afks : List AfkEvent) (now : ℚ)
    (h : effectiveEnd sw now = sw.timestamp) : segmentsForEvent sw afks now = [] := by
  have hflat : ((overlappingAfk sw afks now).flatMap fun afk =>
      (if sw.timestamp < afk.timestamp ∧ afk.timestamp < effectiveEnd sw now
        then [afk.timestamp] else []) ++
      (if sw.timestamp < afk.timestamp + afk.duration * 1000 ∧
          afk.timestamp + afk.duration * 1000 < effectiveEnd sw now
        then [afk.timestamp + afk.duration * 1000] else [])) = [] := by
    refine List.flatMap_eq_nil_iff.mpr ?_
    intro afk _
    rw [h]
    rw [if_neg (fun hc => absurd (lt_trans hc.1 hc.2) (lt_irrefl _)),
      if_neg (fun hc => absurd (lt_trans hc.1 hc.2) (lt_irrefl _))]
    rfl
  have hpts : splitPointsList sw afks now = [sw.timestamp, sw.timestamp] := by
    unfold splitPointsList
    rw [hflat, h]
    rfl
  have hsorted : sortedSplitPoints sw afks now = [sw.timestamp] := by
    unfold sortedSplitPoints
    rw [hpts]
    rw [List.dedup_cons_of_mem (by simp), List.dedup_cons_of_not_mem (by simp)]
    rfl
  unfold segmentsForEvent
  rw [hsorted]
  rfl

/-- Claim C4 (default-active and zero-duration).  With no presence
intervals a non-degenerate task yields exactly one all-active segment
covering the whole task, while a task of duration zero yields no
segments for any presence list. -/
theorem c4_default_active_and_zero (sw : SWEvent) (afks : List AfkEvent) (now : ℚ) :
    (sw.timestamp < effectiveEnd sw now →
      segmentsForEvent sw [] now =
        [{ startTimestamp := sw.timestamp,
           duration := (effectiveEnd sw now - sw.timestamp) / 1000,
           status := "not-afk" }]) ∧
      (sw.duration = 0 → sw.running = false → segmentsForEvent sw afks now = []) := by
  constructor
  · intro hlt
    have hne : sw.timestamp ≠ effectiveEnd sw now := ne_of_lt hlt
    have h1 : overlappingAfk sw [] now = [] := rfl
    have h2 : splitPointsList sw [] now = [sw.timestamp, effectiveEnd sw now] := by
      unfold splitPointsList
      rw [h1]
      rfl
    have h3 : sortedSplitPoints sw [] now = [sw.timestamp, effectiveEnd sw now] := by
      unfold sortedSplitPoints
      rw [h2]
      rw [List.dedup_cons_of_not_mem (by simp [hne]), List.dedup_cons_of_not_mem (by simp)]
      simp [List.insertionSort, List.orderedInsert, le_of_lt hlt]
    unfold segmentsForEvent
    rw [h3, h1]
    rw [rawSegments_cons [] sw.timestamp (effectiveEnd sw now) [] hlt]
    show mergeSegs (mkSegment [] sw.timestamp (effectiveEnd sw now)) [] = _
    unfold mergeSegs mkSegment
    rfl
  · intro hd hr
    apply segmentsForEvent_degenerate
    unfold effectiveEnd
    rw [hr, hd]
    simp

/-- Witness for claim C4 at concrete inputs. -/
theorem c4_default_active_and_zero_witness :
    segmentsForEvent { timestamp := 0, duration := 2, running := false } [] 0 =
        [{ startTimestamp := 0,
           duration := (effectiveEnd { timestamp := 0, duration := 2, running := false } 0
             - 0) / 1000,
           status := "not-afk" }] ∧
      segmentsForEvent { timestamp := 5, duration := 0, running := false }
        [{ timestamp := -1000, duration := 10, status := "afk" }] 0 = [] :=
  ⟨(c4_default_active_and_zero { timestamp := 0, duration := 2, running := false } [] 0).1
      (by norm_num [effectiveEnd]),
    (c4_default_active_and_zero { timestamp := 5, duration := 0, running := false }
      [{ timestamp := -1000, duration := 10, status := "afk" }] 0).2 rfl rfl⟩

/-- The merge loop only emits statuses drawn from its inputs. -/
theorem mergeSegs_status_pred (P : String → Prop) :
    ∀ (l : List Segment) (cur : Segment), P cur.status → (∀ s ∈ l, P s.status) →
      ∀ s ∈ mergeSegs cur l, P s.status := by
  intro l
  induction l with
  | nil =>
      intro cur hcur _ s hs
      simp only [mergeSegs, List.mem_singleton] at hs
      subst hs
      exact hcur
  | cons x rest ih =>
      intro cur hcur hall s hs
      by_cases h : x.status = cur.status
      · rw [show mergeSegs cur (x :: rest) =
            mergeSegs { cur with duration := cur.duration + x.duration } rest by
          simp [mergeSegs, h]] at hs
        exact ih { cur with duration := cur.duration + x.duration } hcur
          (fun t ht => hall t (List.mem_cons_of_mem _ ht)) s hs
      · rw [show mergeSegs cur (x :: rest) = cur :: mergeSegs x rest by
          simp [mergeSegs, h]] at hs
        rcases List.mem_cons.mp hs with rfl | hs
        · exact hcur
        · exact ih x (hall x (List.mem_cons_self _ _))
            (fun t ht => hall t (List.mem_cons_of_mem _ ht)) s hs

/-- With no presence data every output segment is active. -/
theorem segmentsForEvent_empty_status (sw : SWEvent) (now : ℚ) :
    ∀ s ∈ segmentsForEvent sw [] now, s.status = "not-afk" := by
  have hraw : ∀ s ∈ rawSegments (overlappingAfk sw [] now)
      (sortedSplitPoints sw [] now), s.status = "not-afk" := by
    intro s hs
    obtain ⟨a, b, _, rfl⟩ := rawSegments_mem _ _ s hs
    show segmentStatus (overlappingAfk sw [] now) (a + (b - a) / 2) = "not-afk"
    rfl
  intro s hs
  unfold segmentsForEvent at hs
  cases hcase : rawSegments (overlappingAfk sw [] now) (sortedSplitPoints sw [] now) with
  | nil =>
      rw [hcase] at hs
      cases hs
  | cons x rest =>
      rw [hcase] at hs hraw
      exact mergeSegs_status_pred (· = "not-afk") rest x
        (hraw x (List.mem_cons_self _ _))
        (fun t ht => hraw t (List.mem_cons_of_mem _ ht)) s hs

/-- Claim C9 (no failure path).  The engine is a total function: it
returns one augmented entry per task for every well-typed input, the
empty task list yields the empty output, and with no presence data every
produced segment is active. -/
theorem c9_totality (sws : List SWEvent) (afks : List AfkEvent) (now : ℚ) :
    (calculateActivitySegments sws afks now).length = sws.length ∧
      calculateActivitySegments [] afks now = [] ∧
      ∀ p ∈ calculateActivitySegments sws [] now, ∀ s ∈ p.2, s.status = "not-afk" := by
  refine ⟨by simp [calculateActivitySegments], rfl, ?_⟩
  intro p hp s hs
  unfold calculateActivitySegments at hp
  rcases List.mem_map.mp hp with ⟨sw, _, rfl⟩
  exact segmentsForEvent_empty_status sw now s hs

/-- Witness for claim C9 at a concrete input. -/
theorem c9_totality_witness :
    (calculateActivitySegments
        [{ timestamp := 0, duration := 2, running := false }]
        [{ timestamp := -1000, duration := 10, status := "afk" }] 0).length = 1 ∧
      ({ startTimestamp := 0, duration := 2, status := "not-afk" } : Segment).status =
        "not-afk" := by
  refine ⟨(c9_totality [{ timestamp := 0, duration := 2, running := false }]
    [{ timestamp := -1000, duration := 10, status := "afk" }] 0).1, ?_⟩
  have hp : (({ timestamp := 0, duration := 2, running := false } : SWEvent),
      segmentsForEvent { timestamp := 0, duration := 2, running := false } [] 0) ∈
      calculateActivitySegments
        [{ timestamp := 0, duration := 2, running := false }] [] 0 :=
    List.mem_singleton.mpr rfl
  have hseg : ({ startTimestamp := 0, duration := 2, status := "not-afk" } : Segment) ∈
      segmentsForEvent { timestamp := 0, duration := 2, running := false } [] 0 := by
    rw [show segmentsForEvent { timestamp := 0, duration := 2, running := false } [] 0 =
      [{ startTimestamp := 0, duration := 2, status := "not-afk" }] by
        with_unfolding_all rfl]
    exact List.mem_singleton.mpr rfl
  exact (c9_totality [{ timestamp := 0, duration := 2, running := false }]
    [{ timestamp := -1000, duration := 10, status := "afk" }] 0).2.2 _ hp _ hseg

/-- Claim C5 (overlap handling).  Whenever the next same-app sample
starts before the end of the last accepted sample of the current group,
the step emits exactly one diagnostic, closes no group, keeps whichever
of the two samples has the greater duration (the stored one on ties), and
the accumulated duration reflects only the longer contribution. -/
theorem c5_overlap_resolution (st : CleanState) (e lastEv : WEvent)
    (happ : e.app = st.cur.app)
    (hlast : st.cur.events.getLast? = some lastEv)
    (hov : e.timestamp < lastEv.timestamp + lastEv.duration * 1000) :
    (cleanStep st e).warns = st.warns + 1 ∧
      (cleanStep st e).groups = st.groups ∧
      (cleanStep st e).cur.totalDuration =
        st.cur.totalDuration - lastEv.duration + max lastEv.duration e.duration ∧
      (cleanStep st e).cur.events =
        (if lastEv.duration < e.duration then st.cur.events.dropLast ++ [e]
          else st.cur.events) := by
  unfold cleanStep
  rw [if_pos happ]
  simp only [hlast]
  by_cases hdur : lastEv.duration < e.duration
  · rw [if_pos hov, if_pos hdur, if_pos hdur]
    refine ⟨rfl, rfl, ?_, rfl⟩
    show st.cur.totalDuration - lastEv.duration + e.duration = _
    rw [max_eq_right (le_of_lt hdur)]
  · rw [if_pos hov, if_neg hdur, if_neg hdur]
    refine ⟨rfl, rfl, ?_, rfl⟩
    show st.cur.totalDuration = _
    rw [max_eq_left (not_lt.mp hdur)]
    ring

/-- Witness for claim C5: two overlapping same-app samples, the second
longer; only the longer duration remains accumulated. -/
theorem c5_overlap_resolution_witness :
    (cleanStep
        { groups := []
          cur := initGroup
            { bucket := "aw-watcher-window_X", timestamp := 0, duration := 1,
              app := "A", title := "t" }
          warns := 0 }
        { bucket := "aw-watcher-window_X", timestamp := 500, duration := 2,
          app := "A", title := "t" }).warns = 0 + 1 ∧
      (cleanStep
        { groups := []
          cur := initGroup
            { bucket := "aw-watcher-window_X", timestamp := 0, duration := 1,
              app := "A", title := "t" }
          warns := 0 }
        { bucket := "aw-watcher-window_X", timestamp := 500, duration := 2,
          app := "A", title := "t" }).cur.totalDuration = 1 - 1 + max 1 2 := by
  have h := c5_overlap_resolution
    { groups := []
      cur := initGroup
        { bucket := "aw-watcher-window_X", timestamp := 0, duration := 1,
          app := "A", title := "t" }
      warns := 0 }
    { bucket := "aw-watcher-window_X", timestamp := 500, duration := 2,
      app := "A", title := "t" }
    { bucket := "aw-watcher-window_X", timestamp := 0, duration := 1,
      app := "A", title := "t" }
    rfl rfl (by norm_num)
  exact ⟨h.1, h.2.2.1⟩

set_option maxHeartbeats 4000000 in
/-- Counterexample to claim C7 as stated: a single zero-duration sample
is processed twice by the clean walk (the loop re-visits the seeding
event, and with duration zero the self-overlap guard does not fire), so
the grouping engine returns ONE clean group instead of none. -/
theorem c7_singleton_counterexample :
    (groupWindowWatcherEvents
        [{ bucket := "aw-watcher-window_X", timestamp := 100, duration := 0,
           app := "A", title := "t" }]).1 ≠ [] := by
  intro hcontra
  have hlen : (groupWindowWatcherEvents
      [{ bucket := "aw-watcher-window_X", timestamp := 100, duration := 0,
         app := "A", title := "t" }]).1.length = 1 := by
    with_unfolding_all rfl
  rw [hcontra] at hlen
  cases hlen

/-- Claim C7 as amended: a single focus sample of positive duration
produces an empty group list (no clean group and no filler group). -/
theorem c7_singleton_amended (e : WEvent)
    (hbucket : e.bucket.startsWith "aw-watcher-window" = true)
    (hdur : 0 < e.duration) :
    (groupWindowWatcherEvents [e]).1 = [] := by
  have hpos : 0 < e.duration * 1000 := mul_pos hdur (by norm_num)
  have hov : e.timestamp < e.timestamp + e.duration * 1000 := by linarith
  have hwev : windowEventsOf [e] = [e] := by
    unfold windowEventsOf
    rw [List.filter_cons]
    simp only [hbucket, if_true, List.filter_nil]
    simp [List.insertionSort, List.orderedInsert]
  have hstep : cleanStep { groups := [], cur := initGroup e, warns := 0 } e =
      { groups := [], cur := initGroup e, warns := 1 } := by
    unfold cleanStep
    rw [if_pos (show e.app =
      ({ groups := [], cur := initGroup e, warns := 0 } : CleanState).cur.app from rfl)]
    rw [show ({ groups := [], cur := initGroup e, warns := 0 } : CleanState).cur.events.getLast?
      = some e from rfl]
    simp only [hov, lt_self_iff_false, if_true, if_false]
  have hclean : cleanPass [e] = ([initGroup e], 1) := by
    show ((List.foldl cleanStep { groups := [], cur := initGroup e, warns := 0 } [e]).groups ++
        [(List.foldl cleanStep { groups := [], cur := initGroup e, warns := 0 } [e]).cur],
        (List.foldl cleanStep { groups := [], cur := initGroup e, warns := 0 } [e]).warns) =
      ([initGroup e], 1)
    rw [List.foldl_cons, hstep, List.foldl_nil]
    rfl
  have hcg : cleanGroupsOf [e] = [] := by
    unfold cleanGroupsOf
    rw [hwev, hclean]
    simp [initGroup]
  have hnu : notUsedOf [e] = [e] := by
    unfold notUsedOf
    rw [hwev, hcg]
    simp
  have hholes : holesOfEvents [e] =
      [(e.timestamp, e.timestamp + e.duration * 1000)] := by
    unfold holesOfEvents
    rw [hwev, hcg]
    rfl
  have hhe : holeEventsOf (e.timestamp, e.timestamp + e.duration * 1000) [e] = [e] := by
    unfold holeEventsOf
    simp [List.filter, hov, List.insertionSort]
  have hdg : dirtyGroupForHole (e.timestamp, e.timestamp + e.duration * 1000) [e] =
      (none, 0) := by
    unfold dirtyGroupForHole
    rw [hhe]
    rfl
  have hdirty : dirtyPass [(e.timestamp, e.timestamp + e.duration * 1000)] [e] =
      ([], 0) := by
    unfold dirtyPass
    rw [List.foldl_cons, hdg, List.foldl_nil]
  unfold groupWindowWatcherEvents
  rw [hholes, hnu, hdirty, hcg]
  rfl

/-- Witness for the amended claim C7 at a concrete input. -/
theorem c7_singleton_amended_witness :
    (({ bucket := "aw-watcher-window_X", timestamp := 0, duration := 1,
        app := "A", title := "t" } : WEvent).bucket.startsWith
          "aw-watcher-window" = true) ∧
      (0 : ℚ) < 1 ∧
      (groupWindowWatcherEvents
        [{ bucket := "aw-watcher-window_X", timestamp := 0, duration := 1,
           app := "A", title := "t" }]).1 = [] :=
  ⟨by with_unfolding_all rfl, by norm_num,
    c7_singleton_amended
      { bucket := "aw-watcher-window_X", timestamp := 0, duration := 1,
        app := "A", title := "t" } (by with_unfolding_all rfl) (by norm_num)⟩

/-- The clean step preserves the provenance invariant. -/
theorem cleanStep_inv (all : List WEvent) (st : CleanState) (e : WEvent)
    (he : e ∈ all) (hg : ∀ g ∈ st.groups, groupFromEvents all g)
    (hc : groupFromEvents all st.cur) :
    (∀ g ∈ (cleanStep st e).groups, groupFromEvents all g) ∧
      groupFromEvents all (cleanStep st e).cur := by
  unfold cleanStep
  by_cases happ : e.app = st.cur.app
  · rw [if_pos happ]
    cases hl : st.cur.events.getLast? with
    | none =>
        simp only [hl]
        exact ⟨hg, hc.1, ⟨e, he, rfl⟩, hc.2.2⟩
    | some lastEv =>
        simp only [hl]
        split_ifs with h1 h2
        · exact ⟨hg, hc.1, ⟨e, he, rfl⟩, hc.2.2⟩
        · exact ⟨hg, hc⟩
        · exact ⟨hg, hc.1, ⟨e, he, rfl⟩, hc.2.2⟩
  · rw [if_neg happ]
    constructor
    · intro g hgm
      rcases List.mem_append.mp hgm with hgm | hgm
      · exact hg g hgm
      · rw [List.mem_singleton] at hgm
        subst hgm
        exact hc
    · exact ⟨⟨e, he, rfl⟩, ⟨e, he, rfl⟩, rfl⟩

/-- The clean fold preserves the provenance invariant. -/
theorem cleanFold_inv (all : List WEvent) :
    ∀ (l : List WEvent) (st : CleanState), (∀ e ∈ l, e ∈ all) →
      (∀ g ∈ st.groups, groupFromEvents all g) → groupFromEvents all st.cur →
      (∀ g ∈ (l.foldl cleanStep st).groups, groupFromEvents all g) ∧
        groupFromEvents all (l.foldl cleanStep st).cur := by
  intro l
  induction l with
  | nil => intro st _ hg hc; exact ⟨hg, hc⟩
  | cons e rest ih =>
      intro st hall hg hc
      rw [List.foldl_cons]
      have hstep := cleanStep_inv all st e (hall e (List.mem_cons_self _ _)) hg hc
      exact ih (cleanStep st e) (fun x hx => hall x (List.mem_cons_of_mem _ hx))
        hstep.1 hstep.2

/-- Every group emitted by the clean pass satisfies the provenance
invariant over the window events. -/
theorem cleanPass_groups_inv (wev : List WEvent) :
    ∀ g ∈ (cleanPass wev).1, groupFromEvents wev g := by
  cases wev with
  | nil => intro g hgm; cases hgm
  | cons e0 rest =>
      intro g hgm
      have hfold := cleanFold_inv (e0 :: rest) (e0 :: rest)
        { groups := [], cur := initGroup e0, warns := 0 }
        (fun x hx => hx) (fun x hx => absurd hx (List.not_mem_nil x))
        ⟨⟨e0, List.mem_cons_self _ _, rfl⟩, ⟨e0, List.mem_cons_self _ _, rfl⟩, rfl⟩
      have hgm2 : g ∈ (List.foldl cleanStep
          { groups := [], cur := initGroup e0, warns := 0 } (e0 :: rest)).groups ++
          [(List.foldl cleanStep
            { groups := [], cur := initGroup e0, warns := 0 } (e0 :: rest)).cur] := hgm
      rcases List.mem_append.mp hgm2 with hm | hm
      · exact hfold.1 g hm
      · rw [List.mem_singleton] at hm
        subst hm
        exact hfold.2

/-- Every surviving clean group satisfies the provenance invariant. -/
theorem cleanGroupsOf_inv (events : List WEvent) :
    ∀ g ∈ cleanGroupsOf events, groupFromEvents (windowEventsOf events) g := by
  intro g hgm
  exact cleanPass_groups_inv (windowEventsOf events) g (List.mem_of_mem_filter hgm)

/-- Membership through the id assignment: every output group equals an
input group on every field except id. -/
theorem mem_assignIds {gs : List WGroup} {g : WGroup} (h : g ∈ assignIds gs) :
    ∃ g2 ∈ gs, g.startTime = g2.startTime ∧ g.endTime = g2.endTime ∧
      g.totalDuration = g2.totalDuration ∧ g.uniqueApps = g2.uniqueApps ∧
      g.events = g2.events := by
  unfold assignIds at h
  rcases List.mem_map.mp h with ⟨p, hp, rfl⟩
  exact ⟨p.2, List.snd_mem_of_mem_enum hp, rfl, rfl, rfl, rfl, rfl⟩

/-- Membership in the dirty pass output traces back to one hole. -/
theorem dirtyPass_mem_aux (nu : List WEvent) :
    ∀ (holes : List (ℚ × ℚ)) (acc : List WGroup × Nat) (g : WGroup),
      g ∈ (holes.foldl
        (fun acc hole =>
          match dirtyGroupForHole hole nu with
          | (some g2, w) => (acc.1 ++ [g2], acc.2 + w)
          | (none, w) => (acc.1, acc.2 + w)) acc).1 →
      g ∈ acc.1 ∨ ∃ hole ∈ holes, ∃ w, dirtyGroupForHole hole nu = (some g, w) := by
  intro holes
  induction holes with
  | nil => intro acc g hgm; exact Or.inl hgm
  | cons hole rest ih =>
      intro acc g hgm
      rw [List.foldl_cons] at hgm
      rcases ih _ g hgm with hm | ⟨hole2, hh2, w, hw⟩
      · rcases hdg : dirtyGroupForHole hole nu with ⟨og, w⟩
        cases og with
        | some g2 =>
            rw [hdg] at hm
            rcases List.mem_append.mp hm with hm | hm
            · exact Or.inl hm
            · rw [List.mem_singleton] at hm
              subst hm
              exact Or.inr ⟨hole, List.mem_cons_self _ _, w, hdg⟩
        | none =>
            rw [hdg] at hm
            exact Or.inl hm
      · exact Or.inr ⟨hole2, List.mem_cons_of_mem _ hh2, w, hw⟩

/-- Membership in the dirty pass output comes from some hole. -/
theorem dirtyPass_mem (holes : List (ℚ × ℚ)) (nu : List WEvent) (g : WGroup)
    (h : g ∈ (dirtyPass holes nu).1) :
    ∃ hole ∈ holes, ∃ w, dirtyGroupForHole hole nu = (some g, w) := by
  rcases dirtyPass_mem_aux nu holes ([], 0) g h with hm | hm
  · cases hm
  · exact hm

/-- Unfolding of the filler construction on a nonempty hole event list. -/
theorem dirtyGroupForHole_cons (hole : ℚ × ℚ) (nu : List WEvent) (h0 : WEvent)
    (rest : List WEvent) (hle : holeEventsOf hole nu = h0 :: rest) :
    dirtyGroupForHole hole nu =
      (if 1 < (rest.foldl dirtyStep
          { events := [h0]
            titleDurations := [(normalizeTitle h0.title, h0.duration)]
            warns := 0 }).events.length then
        some
          { app := dirtyLabel (rest.foldl dirtyStep
              { events := [h0]
                titleDurations := [(normalizeTitle h0.title, h0.duration)]
                warns := 0 }).events
            startTime := h0.timestamp
            totalDuration := (hole.2 - h0.timestamp) / 1000
            titleDurations := (rest.foldl dirtyStep
              { events := [h0]
                titleDurations := [(normalizeTitle h0.title, h0.duration)]
                warns := 0 }).titleDurations
            events := (rest.foldl dirtyStep
              { events := [h0]
                titleDurations := [(normalizeTitle h0.title, h0.duration)]
                warns := 0 }).events
            endTime := hole.2
            uniqueApps := some (((rest.foldl dirtyStep
              { events := [h0]
                titleDurations := [(normalizeTitle h0.title, h0.duration)]
                warns := 0 }).events.map fun e => e.app).dedup.length)
            id := "" }
      else none,
      (rest.foldl dirtyStep
        { events := [h0]
          titleDurations := [(normalizeTitle h0.title, h0.duration)]
          warns := 0 }).warns) := by
  unfold dirtyGroupForHole
  rw [hle]

/-- Shape of a produced filler group: the hole events are nonempty, the
group start time is the first hole event timestamp, the end time is the
hole end, and the total duration is the wall span between them. -/
theorem dirtyGroupForHole_some (hole : ℚ × ℚ) (nu : List WEvent) (g : WGroup) (w : Nat)
    (h : dirtyGroupForHole hole nu = (some g, w)) :
    ∃ h0 rest, holeEventsOf hole nu = h0 :: rest ∧
      g.startTime = h0.timestamp ∧ g.endTime = hole.2 ∧
      g.totalDuration = (hole.2 - h0.timestamp) / 1000 ∧
      g.uniqueApps.isSome = true := by
  cases hle : holeEventsOf hole nu with
  | nil =>
      have hval : dirtyGroupForHole hole nu = (none, 0) := by
        unfold dirtyGroupForHole
        rw [hle]
      rw [hval] at h
      simp at h
  | cons h0 rest =>
      rw [dirtyGroupForHole_cons hole nu h0 rest hle] at h
      refine ⟨h0, rest, rfl, ?_⟩
      by_cases hlen : 1 < (rest.foldl dirtyStep
          { events := [h0]
            titleDurations := [(normalizeTitle h0.title, h0.duration)]
            warns := 0 }).events.length
      · rw [if_pos hlen, Prod.mk.injEq] at h
        obtain ⟨h1, _⟩ := h
        injection h1 with h1
        subst h1
        exact ⟨rfl, rfl, rfl, rfl⟩
      · rw [if_neg hlen, Prod.mk.injEq] at h
        obtain ⟨h1, _⟩ := h
        cases h1

/-- Claim C10 as amended: every filler group the engine outputs has
totalDuration equal to the wall-clock span in seconds from the FIRST
hole-intersecting leftover sample (which seeds the filler and fixes its
startTime, even when overlap resolution later replaces it in the member
list) to the end of its hole, which is also the group endTime. -/
theorem c10_filler_duration_amended (events : List WEvent) (g : WGroup)
    (hg : g ∈ (groupWindowWatcherEvents events).1)
    (hdirtyg : g.uniqueApps.isSome = true) :
    ∃ hole ∈ holesOfEvents events, ∃ h0 rest,
      holeEventsOf hole (notUsedOf events) = h0 :: rest ∧
      g.startTime = h0.timestamp ∧ g.endTime = hole.2 ∧
      g.totalDuration = (hole.2 - h0.timestamp) / 1000 := by
  unfold groupWindowWatcherEvents at hg
  obtain ⟨g2, hg2mem, hst, hen, htd, hua, _⟩ := mem_assignIds hg
  rcases List.mem_append.mp hg2mem with hcl | hdi
  · have hnone := (cleanGroupsOf_inv events g2 hcl).2.2
    rw [hua, hnone] at hdirtyg
    cases hdirtyg
  · obtain ⟨hole, hhole, w, hdg⟩ := dirtyPass_mem _ _ _ hdi
    obtain ⟨h0, rest, hhe, h1, h2, h3, _⟩ := dirtyGroupForHole_some hole _ g2 w hdg
    exact ⟨hole, hhole, h0, rest, hhe, hst.trans h1, hen.trans h2, htd.trans h3⟩

set_option maxHeartbeats 8000000 in
/-- Counterexample to claim C10 as stated: in this run the only filler
group has totalDuration 11 while the span from its first MEMBER sample
(timestamp 500, after overlap resolution replaced the seeding sample at
timestamp 0) to the hole end is 10.5 seconds. -/
theorem c10_filler_duration_counterexample :
    ((groupWindowWatcherEvents c10Input).1.map fun g =>
        (g.uniqueApps.isSome, g.totalDuration, g.endTime,
          g.events.head?.map WEvent.timestamp)) =
      [(true, 11, 11000, some 500)] ∧
    (11 : ℚ) ≠ (11000 - 500) / 1000 :=
  ⟨by with_unfolding_all rfl, by norm_num⟩

set_option maxHeartbeats 8000000 in
/-- Witness for the amended claim C10 at a concrete input. -/
theorem c10_filler_duration_amended_witness :
    c10Group ∈ (groupWindowWatcherEvents c10Input).1 ∧
      c10Group.uniqueApps.isSome = true ∧
      ∃ hole ∈ holesOfEvents c10Input, ∃ h0 rest,
        holeEventsOf hole (notUsedOf c10Input) = h0 :: rest ∧
        c10Group.startTime = h0.timestamp ∧ c10Group.endTime = hole.2 ∧
        c10Group.totalDuration = (hole.2 - h0.timestamp) / 1000 := by
  have hmem : c10Group ∈ (groupWindowWatcherEvents c10Input).1 := by
    rw [show (groupWindowWatcherEvents c10Input).1 = [c10Group] by
      with_unfolding_all rfl]
    exact List.mem_singleton.mpr rfl
  exact ⟨hmem, rfl, c10_filler_duration_amended c10Input c10Group hmem rfl⟩

set_option maxHeartbeats 16000000 in
/-- Counterexample to claim C6 as stated: the engine ends the global span
at the end of the last-by-timestamp sample (31000 ms) rather than at the
maximal end over all samples (125000 ms), so the computed hole after the
clean group differs from the one the claim describes. -/
theorem c6_span_counterexample :
    holesOfEvents c6Input = [(20000, 31000)] ∧
      specHolesOfEvents c6Input = [(20000, 125000)] ∧
      holesOfEvents c6Input ≠ specHolesOfEvents c6Input := by
  refine ⟨by with_unfolding_all rfl, by with_unfolding_all rfl, ?_⟩
  rw [show holesOfEvents c6Input = [(20000, 31000)] by with_unfolding_all rfl]
  rw [show specHolesOfEvents c6Input = [(20000, 125000)] by with_unfolding_all rfl]
  simp

/-- Bounds for the holes generated between consecutive groups. -/
theorem betweenHoles_bounds (minT maxT : ℚ) :
    ∀ (l : List WGroup),
      (∀ g ∈ l, minT ≤ g.startTime ∧ g.startTime ≤ maxT ∧ minT ≤ g.endTime) →
      ∀ h ∈ betweenHoles l, minT ≤ h.1 ∧ h.1 ≤ h.2 ∧ h.2 ≤ maxT := by
  intro l
  induction l with
  | nil =>
      intro _ h hm
      simp [betweenHoles] at hm
  | cons a rest ih =>
      cases rest with
      | nil =>
          intro _ h hm
          simp [betweenHoles] at hm
      | cons b rest2 =>
          intro hg h hm
          rw [show betweenHoles (a :: b :: rest2) =
              (if a.endTime < b.startTime then [(a.endTime, b.startTime)] else []) ++
                betweenHoles (b :: rest2) from rfl] at hm
          rcases List.mem_append.mp hm with hm | hm
          · split_ifs at hm with hcond
            · rw [List.mem_singleton] at hm
              subst hm
              exact ⟨(hg a (List.mem_cons_self _ _)).2.2, le_of_lt hcond,
                (hg b (List.mem_cons_of_mem _ (List.mem_cons_self _ _))).2.1⟩
            · cases hm
          · exact ih (fun g hgm => hg g (List.mem_cons_of_mem _ hgm)) h hm

/-- Bounds for the full hole list: every hole is a nonempty-to-ordered
pair inside the span. -/
theorem computeHoles_bounds (cgs : List WGroup) (minT maxT : ℚ) (hmm : minT ≤ maxT)
    (hg : ∀ g ∈ cgs, minT ≤ g.startTime ∧ g.startTime ≤ maxT ∧ minT ≤ g.endTime) :
    ∀ h ∈ computeHoles cgs minT maxT, minT ≤ h.1 ∧ h.1 ≤ h.2 ∧ h.2 ≤ maxT := by
  cases cgs with
  | nil =>
      intro h hm
      rw [show computeHoles [] minT maxT = [(minT, maxT)] from rfl] at hm
      rw [List.mem_singleton] at hm
      subst hm
      exact ⟨le_refl _, hmm, le_refl _⟩
  | cons g0 rest =>
      intro h hm
      rw [show computeHoles (g0 :: rest) minT maxT =
          (if minT < g0.startTime then [(minT, g0.startTime)] else []) ++
            betweenHoles (g0 :: rest) ++
            (if ((g0 :: rest).getLast (List.cons_ne_nil g0 rest)).endTime < maxT then
              [(((g0 :: rest).getLast (List.cons_ne_nil g0 rest)).endTime, maxT)]
            else []) from rfl] at hm
      rcases List.mem_append.mp hm with hm | hm
      · rcases List.mem_append.mp hm with hm | hm
        · split_ifs at hm with hcond
          · rw [List.mem_singleton] at hm
            subst hm
            exact ⟨le_refl _, le_of_lt hcond, (hg g0 (List.mem_cons_self _ _)).2.1⟩
          · cases hm
        · exact betweenHoles_bounds minT maxT (g0 :: rest) hg h hm
      · split_ifs at hm with hcond
        · rw [List.mem_singleton] at hm
          subst hm
          refine ⟨?_, le_of_lt hcond, le_refl _⟩
          exact (hg _ (List.getLast_mem (List.cons_ne_nil g0 rest))).2.2
        · cases hm

/-- Membership in the sorted filtered window events implies membership in
the raw input. -/
theorem mem_windowEventsOf {events : List WEvent} {e : WEvent}
    (h : e ∈ windowEventsOf events) : e ∈ events := by
  unfold windowEventsOf at h
  exact List.mem_of_mem_filter ((List.perm_insertionSort _ _).mem_iff.mp h)

/-- Claim C6 as amended: the span used by the hole computation runs from
the first sorted window event timestamp (the minimum timestamp) to the
end of the LAST sorted window event (the sample with the maximal
timestamp), the holes are exactly the positional gaps computed from the
surviving clean group boundaries, and every hole is an ordered pair lying
within that span. -/
theorem c6_holes_amended (events : List WEvent) (w0 : WEvent) (ws : List WEvent)
    (hw : windowEventsOf events = w0 :: ws)
    (hdur : ∀ e ∈ events, 0 ≤ e.duration) :
    holesOfEvents events =
      computeHoles (cleanGroupsOf events) w0.timestamp
        (((w0 :: ws).getLast (List.cons_ne_nil w0 ws)).timestamp +
          ((w0 :: ws).getLast (List.cons_ne_nil w0 ws)).duration * 1000) ∧
      (∀ e ∈ windowEventsOf events, w0.timestamp ≤ e.timestamp) ∧
      (∀ e ∈ windowEventsOf events,
        e.timestamp ≤ ((w0 :: ws).getLast (List.cons_ne_nil w0 ws)).timestamp) ∧
      ∀ h ∈ holesOfEvents events,
        w0.timestamp ≤ h.1 ∧ h.1 ≤ h.2 ∧
          h.2 ≤ ((w0 :: ws).getLast (List.cons_ne_nil w0 ws)).timestamp +
            ((w0 :: ws).getLast (List.cons_ne_nil w0 ws)).duration * 1000 := by
  have hsorted : (windowEventsOf events).Sorted fun a b => a.timestamp ≤ b.timestamp :=
    List.sorted_insertionSort _ _
  have hsorted2 : (w0 :: ws).Sorted fun a b : WEvent => a.timestamp ≤ b.timestamp :=
    hw ▸ hsorted
  have hmin : ∀ e ∈ w0 :: ws, w0.timestamp ≤ e.timestamp :=
    sorted_head_rel (r := fun a b : WEvent => a.timestamp ≤ b.timestamp)
      (fun a => le_refl a.timestamp) hsorted2
  have hmax : ∀ e ∈ w0 :: ws,
      e.timestamp ≤ ((w0 :: ws).getLast (List.cons_ne_nil w0 ws)).timestamp :=
    sorted_rel_getLast (r := fun a b : WEvent => a.timestamp ≤ b.timestamp)
      (fun a => le_refl a.timestamp) (List.cons_ne_nil w0 ws) hsorted2
  have hlast_mem : ((w0 :: ws).getLast (List.cons_ne_nil w0 ws)) ∈ w0 :: ws :=
    List.getLast_mem (List.cons_ne_nil w0 ws)
  have hdur2 : ∀ e ∈ w0 :: ws, 0 ≤ e.duration * 1000 := by
    intro e he
    have : e ∈ events := mem_windowEventsOf (hw ▸ he)
    exact mul_nonneg (hdur e this) (by norm_num)
  have hmaxT : ∀ e ∈ w0 :: ws, e.timestamp ≤
      ((w0 :: ws).getLast (List.cons_ne_nil w0 ws)).timestamp +
        ((w0 :: ws).getLast (List.cons_ne_nil w0 ws)).duration * 1000 := by
    intro e he
    have h1 := hmax e he
    have h2 := hdur2 _ hlast_mem
    linarith
  have hspan : w0.timestamp ≤
      ((w0 :: ws).getLast (List.cons_ne_nil w0 ws)).timestamp +
        ((w0 :: ws).getLast (List.cons_ne_nil w0 ws)).duration * 1000 :=
    hmaxT w0 (List.mem_cons_self _ _)
  have heq : holesOfEvents events =
      computeHoles (cleanGroupsOf events) w0.timestamp
        (((w0 :: ws).getLast (List.cons_ne_nil w0 ws)).timestamp +
          ((w0 :: ws).getLast (List.cons_ne_nil w0 ws)).duration * 1000) := by
    unfold holesOfEvents
    rw [hw]
  have hgbounds : ∀ g ∈ cleanGroupsOf events,
      w0.timestamp ≤ g.startTime ∧
        g.startTime ≤ ((w0 :: ws).getLast (List.cons_ne_nil w0 ws)).timestamp +
          ((w0 :: ws).getLast (List.cons_ne_nil w0 ws)).duration * 1000 ∧
        w0.timestamp ≤ g.endTime := by
    intro g hgm
    obtain ⟨⟨ev, hev, hst⟩, ⟨ev2, hev2, hend⟩, _⟩ := cleanGroupsOf_inv events g hgm
    rw [hw] at hev hev2
    refine ⟨?_, ?_, ?_⟩
    · rw [hst]
      exact hmin ev hev
    · rw [hst]
      exact hmaxT ev hev
    · rw [hend]
      have h1 := hmin ev2 hev2
      have h2 := hdur2 ev2 hev2
      linarith
  refine ⟨heq, fun e he => hmin e (hw ▸ he), fun e he => hmax e (hw ▸ he), ?_⟩
  rw [heq]
  exact computeHoles_bounds (cleanGroupsOf events) _ _ hspan hgbounds

set_option maxHeartbeats 4000000 in
/-- Witness for the amended claim C6 at a concrete input. -/
theorem c6_holes_amended_witness :
    windowEventsOf [c6wEv] = [c6wEv] ∧
      (holesOfEvents [c6wEv] =
        computeHoles (cleanGroupsOf [c6wEv]) c6wEv.timestamp
          ((([c6wEv] : List WEvent).getLast (List.cons_ne_nil c6wEv [])).timestamp +
            (([c6wEv] : List WEvent).getLast (List.cons_ne_nil c6wEv [])).duration * 1000) ∧
        (∀ e ∈ windowEventsOf [c6wEv], c6wEv.timestamp ≤ e.timestamp) ∧
        (∀ e ∈ windowEventsOf [c6wEv],
          e.timestamp ≤
            (([c6wEv] : List WEvent).getLast (List.cons_ne_nil c6wEv [])).timestamp) ∧
        ∀ h ∈ holesOfEvents [c6wEv],
          c6wEv.timestamp ≤ h.1 ∧ h.1 ≤ h.2 ∧
            h.2 ≤ (([c6wEv] : List WEvent).getLast
                (List.cons_ne_nil c6wEv [])).timestamp +
              (([c6wEv] : List WEvent).getLast
                (List.cons_ne_nil c6wEv [])).duration * 1000) := by
  have hw : windowEventsOf [c6wEv] = [c6wEv] := by
    with_unfolding_all rfl
  refine ⟨hw, c6_holes_amended [c6wEv] c6wEv [] hw ?_⟩
  intro e he
  rw [List.mem_singleton] at he
  subst he
  show (0 : ℚ) ≤ 1
  norm_num

theorem dayTotal_cons (k2 : ℤ) (v2 : ℚ) (rest : List (ℤ × ℚ)) (d : ℤ) :
    dayTotal ((k2, v2) :: rest) d = (if k2 = d then v2 else 0) + dayTotal rest d := by
  by_cases h : k2 = d <;> simp [dayTotal, List.filter_cons, h]

theorem partOf_cons (μ : TaskAcc → ℚ) (l2 : String) (a : TaskAcc)
    (rest : List (String × TaskAcc)) (l : String) :
    partOf μ ((l2, a) :: rest) l = (if l2 = l then μ a else 0) + partOf μ rest l := by
  by_cases h : l2 = l <;> simp [partOf, List.filter_cons, h]

theorem activeDurSum_cons (s : Segment) (rest : List Segment) :
    activeDurSum (s :: rest) =
      (if s.status = "not-afk" then s.duration else 0) + activeDurSum rest := by
  by_cases h : s.status = "not-afk" <;> simp [activeDurSum, List.filter_cons, h]

theorem activeDayDurSum_cons (s : Segment) (rest : List Segment) (d : ℤ) :
    activeDayDurSum (s :: rest) d =
      (if s.status = "not-afk" ∧ dayKey s.startTimestamp = d then s.duration else 0) +
        activeDayDurSum rest d := by
  by_cases h1 : s.status = "not-afk"
  · by_cases h2 : dayKey s.startTimestamp = d <;>
      simp [activeDayDurSum, List.filter_cons, h1, h2]
  · simp [activeDayDurSum, List.filter_cons, h1]

theorem mapAddZ_dayTotal : ∀ (m : List (ℤ × ℚ)) (k : ℤ) (v : ℚ) (d : ℤ),
    dayTotal (mapAddZ m k v) d = dayTotal m d + (if k = d then v else 0) := by
  intro m
  induction m with
  | nil =>
      intro k v d
      rw [show mapAddZ [] k v = [(k, v)] from rfl, dayTotal_cons]
      rw [show dayTotal [] d = 0 from rfl]
      ring
  | cons p rest ih =>
      intro k v d
      obtain ⟨k2, v2⟩ := p
      by_cases h1 : k2 = k
      · subst h1
        rw [show mapAddZ ((k2, v2) :: rest) k2 v = (k2, v2 + v) :: rest by
          simp [mapAddZ]]
        rw [dayTotal_cons, dayTotal_cons]
        by_cases h2 : k2 = d <;> simp [h2] <;> try ring
      · rw [show mapAddZ ((k2, v2) :: rest) k v = (k2, v2) :: mapAddZ rest k v by
          simp [mapAddZ, h1]]
        rw [dayTotal_cons, dayTotal_cons, ih]
        ring

theorem applySegment_total (acc : TaskAcc) (s : Segment) :
    (applySegment acc s).totalCleanTime =
      acc.totalCleanTime + (if s.status = "not-afk" then s.duration else 0) := by
  by_cases h : s.status = "not-afk" <;> simp [applySegment, h]

theorem applySegment_daily (acc : TaskAcc) (s : Segment) (d : ℤ) :
    dayTotal (applySegment acc s).dailyBreakdown d =
      dayTotal acc.dailyBreakdown d +
        (if s.status = "not-afk" ∧ dayKey s.startTimestamp = d then s.duration else 0) := by
  by_cases h1 : s.status = "not-afk"
  · rw [show (applySegment acc s).dailyBreakdown =
        mapAddZ acc.dailyBreakdown (dayKey s.startTimestamp) s.duration by
      simp [applySegment, h1]]
    rw [mapAddZ_dayTotal]
    by_cases h2 : dayKey s.startTimestamp = d <;> simp [h1, h2]
  · rw [show (applySegment acc s).dailyBreakdown = acc.dailyBreakdown by
      simp [applySegment, h1]]
    simp [h1]

theorem applySegment_label (acc : TaskAcc) (s : Segment) :
    (applySegment acc s).label = acc.label := by
  by_cases h : s.status = "not-afk" <;> simp [applySegment, h]

theorem segFold_total : ∀ (segs : List Segment) (acc : TaskAcc),
    (segs.foldl applySegment acc).totalCleanTime =
      acc.totalCleanTime + activeDurSum segs := by
  intro segs
  induction segs with
  | nil => intro acc; simp [activeDurSum]
  | cons s rest ih =>
      intro acc
      rw [List.foldl_cons, ih, applySegment_total, activeDurSum_cons]
      ring

theorem segFold_daily : ∀ (segs : List Segment) (acc : TaskAcc) (d : ℤ),
    dayTotal (segs.foldl applySegment acc).dailyBreakdown d =
      dayTotal acc.dailyBreakdown d + activeDayDurSum segs d := by
  intro segs
  induction segs with
  | nil => intro acc d; simp [activeDayDurSum, dayTotal]
  | cons s rest ih =>
      intro acc d
      rw [List.foldl_cons, ih, applySegment_daily, activeDayDurSum_cons]
      ring

theorem segFold_label : ∀ (segs : List Segment) (acc : TaskAcc),
    (segs.foldl applySegment acc).label = acc.label := by
  intro segs
  induction segs with
  | nil => intro acc; rfl
  | cons s rest ih =>
      intro acc
      rw [List.foldl_cons, ih, applySegment_label]

theorem applyEvent_total (acc : TaskAcc) (e : REvent) :
    (applyEvent acc e).totalCleanTime =
      acc.totalCleanTime + activeDurSum (e.activitySegments.getD []) := by
  show ((e.activitySegments.getD []).foldl applySegment acc).totalCleanTime = _
  exact segFold_total _ acc

theorem applyEvent_daily (acc : TaskAcc) (e : REvent) (d : ℤ) :
    dayTotal (applyEvent acc e).dailyBreakdown d =
      dayTotal acc.dailyBreakdown d + activeDayDurSum (e.activitySegments.getD []) d := by
  show dayTotal ((e.activitySegments.getD []).foldl applySegment acc).dailyBreakdown d = _
  exact segFold_daily _ acc d

theorem applyEvent_label (acc : TaskAcc) (e : REvent) :
    (applyEvent acc e).label = acc.label := by
  show ((e.activitySegments.getD []).foldl applySegment acc).label = _
  exact segFold_label _ acc

theorem processInto_measure (μ : TaskAcc → ℚ) (δ : REvent → ℚ)
    (hμ : ∀ a e, μ (applyEvent a e) = μ a + δ e) (hinit : ∀ l, μ (initAcc l) = 0) :
    ∀ (m : List (String × TaskAcc)) (e : REvent) (l : String),
      partOf μ (processInto m (labelOf e) e) l =
        partOf μ m l + (if labelOf e = l then δ e else 0) := by
  intro m
  induction m with
  | nil =>
      intro e l
      rw [show processInto [] (labelOf e) e = [(labelOf e, applyEvent (initAcc (labelOf e)) e)]
        from rfl]
      rw [partOf_cons, hμ, hinit]
      rw [show partOf μ [] l = 0 from rfl]
      by_cases h : labelOf e = l <;> simp [h]
  | cons p rest ih =>
      intro e l
      obtain ⟨l2, a⟩ := p
      by_cases h1 : l2 = labelOf e
      · rw [show processInto ((l2, a) :: rest) (labelOf e) e =
            (l2, applyEvent a e) :: rest by simp [processInto, h1]]
        rw [partOf_cons, partOf_cons]
        by_cases h2 : l2 = l
        · rw [if_pos h2, if_pos h2, hμ, if_pos (h1.symm.trans h2)]
          ring
        · rw [if_neg h2, if_neg h2, if_neg fun hc => h2 (h1.trans hc)]
          ring
      · rw [show processInto ((l2, a) :: rest) (labelOf e) e =
            (l2, a) :: processInto rest (labelOf e) e by simp [processInto, h1]]
        rw [partOf_cons, partOf_cons, ih]
        ring

theorem reportFold_measure (μ : TaskAcc → ℚ) (δ : REvent → ℚ)
    (hμ : ∀ a e, μ (applyEvent a e) = μ a + δ e) (hinit : ∀ l, μ (initAcc l) = 0) :
    ∀ (es : List REvent) (m : List (String × TaskAcc)) (l : String),
      partOf μ (es.foldl (fun m2 e => processInto m2 (labelOf e) e) m) l =
        partOf μ m l + (es.map fun e => if labelOf e = l then δ e else 0).sum := by
  intro es
  induction es with
  | nil => intro m l; simp
  | cons e rest ih =>
      intro m l
      rw [List.foldl_cons, ih, processInto_measure μ δ hμ hinit]
      rw [List.map_cons, List.sum_cons]
      ring

/-- Decomposition of the clean-time specification as a per-event sum. -/
theorem cleanSumList_eq : ∀ (es : List REvent) (l : String),
    (((es.filter fun e => labelOf e = l).flatMap activeSegsOf).map Segment.duration).sum =
      (es.map fun e =>
        if labelOf e = l then activeDurSum (e.activitySegments.getD []) else 0).sum := by
  intro es
  induction es with
  | nil => intro l; simp
  | cons e rest ih =>
      intro l
      rw [List.map_cons, List.sum_cons]
      by_cases h : labelOf e = l
      · rw [show List.filter (fun e2 => decide (labelOf e2 = l)) (e :: rest) =
            e :: List.filter (fun e2 => decide (labelOf e2 = l)) rest by
          simp [List.filter_cons, h]]
        rw [show (e :: List.filter (fun e2 => decide (labelOf e2 = l)) rest).flatMap
            activeSegsOf = activeSegsOf e ++
              (List.filter (fun e2 => decide (labelOf e2 = l)) rest).flatMap activeSegsOf
          from rfl]
        rw [List.map_append, List.sum_append, ih, if_pos h]
        rfl
      · rw [show List.filter (fun e2 => decide (labelOf e2 = l)) (e :: rest) =
            List.filter (fun e2 => decide (labelOf e2 = l)) rest by
          simp [List.filter_cons, h]]
        rw [ih, if_neg h]
        simp

/-- Decomposition of the per-day specification as a per-event sum. -/
theorem daySumList_eq : ∀ (es : List REvent) (l : String) (d : ℤ),
    ((((es.filter fun e => labelOf e = l).flatMap activeSegsOf).filter
      fun s => dayKey s.startTimestamp = d).map Segment.duration).sum =
      (es.map fun e =>
        if labelOf e = l then activeDayDurSum (e.activitySegments.getD []) d else 0).sum := by
  intro es
  induction es with
  | nil => intro l d; simp
  | cons e rest ih =>
      intro l d
      rw [List.map_cons, List.sum_cons]
      by_cases h : labelOf e = l
      · rw [show List.filter (fun e2 => decide (labelOf e2 = l)) (e :: rest) =
            e :: List.filter (fun e2 => decide (labelOf e2 = l)) rest by
          simp [List.filter_cons, h]]
        rw [show (e :: List.filter (fun e2 => decide (labelOf e2 = l)) rest).flatMap
            activeSegsOf = activeSegsOf e ++
              (List.filter (fun e2 => decide (labelOf e2 = l)) rest).flatMap activeSegsOf
          from rfl]
        rw [List.filter_append, List.map_append, List.sum_append, ih, if_pos h]
        rfl
      · rw [show List.filter (fun e2 => decide (labelOf e2 = l)) (e :: rest) =
            List.filter (fun e2 => decide (labelOf e2 = l)) rest by
          simp [List.filter_cons, h]]
        rw [ih, if_neg h]
        simp

theorem processInto_keys : ∀ (m : List (String × TaskAcc)) (l : String) (e : REvent),
    keysOf (processInto m l e) = keysOf m ∨
      keysOf (processInto m l e) = keysOf m ++ [l] := by
  intro m
  induction m with
  | nil => intro l e; right; rfl
  | cons p rest ih =>
      intro l e
      obtain ⟨l2, a⟩ := p
      by_cases h : l2 = l
      · left
        rw [show processInto ((l2, a) :: rest) l e = (l2, applyEvent a e) :: rest by
          simp [processInto, h]]
        rfl
      · rw [show processInto ((l2, a) :: rest) l e =
            (l2, a) :: processInto rest l e by simp [processInto, h]]
        rcases ih l e with h2 | h2
        · left
          show l2 :: keysOf (processInto rest l e) = l2 :: keysOf rest
          rw [h2]
        · right
          show l2 :: keysOf (processInto rest l e) = (l2 :: keysOf rest) ++ [l]
          rw [h2]
          rfl

theorem processInto_nodup : ∀ (m : List (String × TaskAcc)) (l : String) (e : REvent),
    (keysOf m).Nodup → (keysOf (processInto m l e)).Nodup := by
  intro m
  induction m with
  | nil =>
      intro l e _
      exact List.nodup_singleton l
  | cons p rest ih =>
      intro l e hnd
      obtain ⟨l2, a⟩ := p
      have hnd2 : (l2 :: keysOf rest).Nodup := hnd
      have hnm : l2 ∉ keysOf rest := (List.nodup_cons.mp hnd2).1
      have hndr : (keysOf rest).Nodup := (List.nodup_cons.mp hnd2).2
      by_cases h : l2 = l
      · rw [show processInto ((l2, a) :: rest) l e = (l2, applyEvent a e) :: rest by
          simp [processInto, h]]
        exact hnd2
      · rw [show processInto ((l2, a) :: rest) l e =
            (l2, a) :: processInto rest l e by simp [processInto, h]]
        show (l2 :: keysOf (processInto rest l e)).Nodup
        rw [List.nodup_cons]
        refine ⟨?_, ih l e hndr⟩
        rcases processInto_keys rest l e with h2 | h2 <;> rw [h2]
        · exact hnm
        · intro hc
          rcases List.mem_append.mp hc with hc | hc
          · exact hnm hc
          · rw [List.mem_singleton] at hc
            exact h hc

theorem processInto_label : ∀ (m : List (String × TaskAcc)) (l : String) (e : REvent),
    (∀ p ∈ m, p.2.label = p.1) → ∀ p ∈ processInto m l e, p.2.label = p.1 := by
  intro m
  induction m with
  | nil =>
      intro l e _ p hp
      rw [show processInto [] l e = [(l, applyEvent (initAcc l) e)] from rfl,
        List.mem_singleton] at hp
      subst hp
      show (applyEvent (initAcc l) e).label = l
      rw [applyEvent_label]
      rfl
  | cons q rest ih =>
      intro l e hinv p hp
      obtain ⟨l2, a⟩ := q
      by_cases h : l2 = l
      · rw [show processInto ((l2, a) :: rest) l e = (l2, applyEvent a e) :: rest by
          simp [processInto, h]] at hp
        rcases List.mem_cons.mp hp with rfl | hp2
        · show (applyEvent a e).label = l2
          rw [applyEvent_label]
          exact hinv (l2, a) (List.mem_cons_self _ _)
        · exact hinv p (List.mem_cons_of_mem _ hp2)
      · rw [show processInto ((l2, a) :: rest) l e =
            (l2, a) :: processInto rest l e by simp [processInto, h]] at hp
        rcases List.mem_cons.mp hp with rfl | hp2
        · exact hinv (l2, a) (List.mem_cons_self _ _)
        · exact ih l e (fun q hq => hinv q (List.mem_cons_of_mem _ hq)) p hp2

theorem reportFold_nodup : ∀ (es : List REvent) (m : List (String × TaskAcc)),
    (keysOf m).Nodup →
    (keysOf (es.foldl (fun m2 e => processInto m2 (labelOf e) e) m)).Nodup := by
  intro es
  induction es with
  | nil => intro m h; exact h
  | cons e rest ih =>
      intro m h
      rw [List.foldl_cons]
      exact ih _ (processInto_nodup m (labelOf e) e h)

theorem reportFold_label : ∀ (es : List REvent) (m : List (String × TaskAcc)),
    (∀ p ∈ m, p.2.label = p.1) →
    ∀ p ∈ es.foldl (fun m2 e => processInto m2 (labelOf e) e) m, p.2.label = p.1 := by
  intro es
  induction es with
  | nil => intro m h; exact h
  | cons e rest ih =>
      intro m h
      rw [List.foldl_cons]
      exact ih _ (processInto_label m (labelOf e) e h)

theorem filter_key_single : ∀ (m : List (String × TaskAcc)) (p : String × TaskAcc),
    (keysOf m).Nodup → p ∈ m → (m.filter fun q => q.1 = p.1) = [p] := by
  intro m
  induction m with
  | nil => intro p _ hp; cases hp
  | cons q rest ih =>
      intro p hnd hp
      have hnd2 : (q.1 :: keysOf rest).Nodup := hnd
      have hnm : q.1 ∉ keysOf rest := (List.nodup_cons.mp hnd2).1
      have hndr : (keysOf rest).Nodup := (List.nodup_cons.mp hnd2).2
      rcases List.mem_cons.mp hp with rfl | hp2
      · rw [show (p :: rest).filter (fun q2 => q2.1 = p.1) =
            p :: rest.filter (fun q2 => q2.1 = p.1) by simp [List.filter_cons]]
        rw [show rest.filter (fun q2 => q2.1 = p.1) = [] from ?_]
        rw [List.filter_eq_nil_iff]
        intro x hx
        simp only [decide_eq_true_eq]
        intro hc
        exact hnm (hc ▸ List.mem_map_of_mem Prod.fst hx)
      · have hqp : ¬ q.1 = p.1 := by
          intro hc
          exact hnm (hc ▸ List.mem_map_of_mem Prod.fst hp2)
        rw [show (q :: rest).filter (fun q2 => q2.1 = p.1) =
            rest.filter (fun q2 => q2.1 = p.1) by simp [List.filter_cons, hqp]]
        exact ih p hndr hp2

theorem dayTotal_perm {l l2 : List (ℤ × ℚ)} (h : l.Perm l2) (d : ℤ) :
    dayTotal l d = dayTotal l2 d := by
  unfold dayTotal
  exact ((h.filter _).map _).sum_eq

/-- Claim C8 as amended: every row of the generated report carries, for
its label, the sum of the durations of exactly the active (not-afk)
segments over all consumed stopwatch events with that label, and its
daily breakdown records those sums bucketed by the UTC calendar day of
the segment start. -/
theorem c8_report_totals_amended (events : List REvent) (r : TaskReportRow)
    (hr : r ∈ generateTaskReport events) :
    r.totalCleanTimeRaw = cleanTimeSpec events r.label ∧
      ∀ d : ℤ, dayTotal r.dailyBreakdown d = dailySpec events r.label d := by
  unfold generateTaskReport at hr
  have hr2 := (List.perm_insertionSort
    (fun a b : TaskReportRow => b.totalCleanTimeRaw ≤ a.totalCleanTimeRaw) _).mem_iff.mp hr
  obtain ⟨p, hp, hrow⟩ := List.mem_map.mp hr2
  have hnodup : (keysOf ((reportEventsOf events).foldl
      (fun m e => processInto m (labelOf e) e) [])).Nodup :=
    reportFold_nodup _ [] List.nodup_nil
  have hlab : p.2.label = p.1 :=
    reportFold_label (reportEventsOf events) [] (fun q hq => absurd hq (List.not_mem_nil q))
      p hp
  have hfil := filter_key_single _ p hnodup hp
  have htot : partOf (fun a => a.totalCleanTime)
      ((reportEventsOf events).foldl (fun m e => processInto m (labelOf e) e) []) p.1 =
      p.2.totalCleanTime := by
    unfold partOf
    rw [hfil]
    simp
  have htot2 : partOf (fun a => a.totalCleanTime)
      ((reportEventsOf events).foldl (fun m e => processInto m (labelOf e) e) []) p.1 =
      cleanTimeSpec events p.1 := by
    rw [reportFold_measure (fun a => a.totalCleanTime)
      (fun e => activeDurSum (e.activitySegments.getD []))
      applyEvent_total (fun l => rfl) (reportEventsOf events) [] p.1]
    rw [show partOf (fun a => a.totalCleanTime) [] p.1 = 0 from rfl, zero_add]
    unfold cleanTimeSpec
    rw [cleanSumList_eq]
  have hday : ∀ d : ℤ, partOf (fun a => dayTotal a.dailyBreakdown d)
      ((reportEventsOf events).foldl (fun m e => processInto m (labelOf e) e) []) p.1 =
      dayTotal p.2.dailyBreakdown d := by
    intro d
    unfold partOf
    rw [hfil]
    simp
  have hday2 : ∀ d : ℤ, partOf (fun a => dayTotal a.dailyBreakdown d)
      ((reportEventsOf events).foldl (fun m e => processInto m (labelOf e) e) []) p.1 =
      dailySpec events p.1 d := by
    intro d
    rw [reportFold_measure (fun a => dayTotal a.dailyBreakdown d)
      (fun e => activeDayDurSum (e.activitySegments.getD []) d)
      (fun a e => applyEvent_daily a e d) (fun l => rfl) (reportEventsOf events) [] p.1]
    rw [show partOf (fun a => dayTotal a.dailyBreakdown d) [] p.1 = 0 from rfl, zero_add]
    unfold dailySpec
    rw [daySumList_eq]
  subst hrow
  refine ⟨?_, ?_⟩
  · show p.2.totalCleanTime = cleanTimeSpec events p.2.label
    rw [hlab, ← htot2, htot]
  · intro d
    show dayTotal (List.insertionSort (fun a b : ℤ × ℚ => a.1 ≤ b.1) p.2.dailyBreakdown) d =
      dailySpec events p.2.label d
    rw [dayTotal_perm (List.perm_insertionSort _ _) d, hlab, ← hday2 d, hday d]

set_option maxHeartbeats 4000000 in
/-- Counterexample to claim C8 as stated: the report buckets the segment
under UTC day 0 (the toISOString date), while the LOCAL date of the
segment start in any environment east of UTC by at least one hour
(here UTC+3) is day 1. -/
theorem c8_daykey_counterexample :
    ((generateTaskReport [c8Event]).map fun r =>
        (r.label, r.totalCleanTimeRaw, r.dailyBreakdown)) =
      [("T", 3600, [((0 : ℤ), (3600 : ℚ))])] ∧
      dayKey 82800000 = 0 ∧
      dayKeyLocal 10800000 82800000 = 1 ∧
      (0 : ℤ) ≠ 1 :=
  ⟨by with_unfolding_all rfl, by with_unfolding_all rfl, by with_unfolding_all rfl,
    by decide⟩

set_option maxHeartbeats 4000000 in
/-- Witness for the amended claim C8 at a concrete input. -/
theorem c8_report_totals_amended_witness :
    c8Row ∈ generateTaskReport [c8Event] ∧
      c8Row.totalCleanTimeRaw = cleanTimeSpec [c8Event] c8Row.label ∧
      ∀ d : ℤ, dayTotal c8Row.dailyBreakdown d = dailySpec [c8Event] c8Row.label d := by
  have hmem : c8Row ∈ generateTaskReport [c8Event] := by
    rw [show generateTaskReport [c8Event] = [c8Row] by with_unfolding_all rfl]
    exact List.mem_singleton.mpr rfl
  exact ⟨hmem, c8_report_totals_amended [c8Event] c8Row hmem⟩
